import Mathlib

/-!
Verification of the urVision `ObjectTracker` (src/ObjectTracker.cpp).

Shallow embedding notes:
* The source computes IEEE-double Euclidean distances via `sqrt`.  Every use
  of a distance in the source is an order comparison (`<` against another
  distance, or `<` against the configured tolerance), and `sqrt` is strictly
  monotone on nonnegative reals, so the embedding stores exact integer
  coordinates and compares squared distances; the tolerance is squared at its
  single use site.
* Each `std::map` field is modelled as an association list whose keys are in
  strictly increasing order (`std::map` iterates keys ascending).
* `std::sort` is called with a strict `<` comparator; the C++ standard leaves
  the order of tie elements unspecified.  The embedding fixes a concrete
  deterministic insertion sort (`sortLt`) agreeing with the comparator on all
  non-tied pairs.
-/

/-- Scalar coordinate / `Distance` type (double in the source; exact integers
here, with squared distances — see the header comment). -/
abbrev Distance := Int

/-- Tracked object record.  The field list (x, y, z, size) is the one used by
`euclidean_distance` and the `ROS_INFO` call in `register_object`. -/
structure Object where
  x : Distance
  y : Distance
  z : Distance
  size : Distance
deriving DecidableEq, Repr

/-- C++ value-initialization of `Object` (all doubles zero), the value
`std::map::operator[]` default-inserts. -/
instance : Inhabited Object := ⟨⟨0, 0, 0, 0⟩⟩

/-- Modelled from the spec: `operator>` on `Object` (the ranking relation used
by `register_object` when maintaining `m_id_list`) is declared in the header
`urVision/ObjectTracker.h`, which is not among the provided sources.  Spec §3
and §9 fix it as ranking by `size` descending: `a > b` iff `a.size > b.size`. -/
def Object.gtRank (a b : Object) : Bool := b.size < a.size

/-- `euclidean_distance`, squared: `delt_x*delt_x + delt_y*delt_y +
delt_z*delt_z` (the source then takes `sqrt`; see the header comment). -/
def euclidean_distance2 (a b : Object) : Distance :=
  (a.x - b.x) * (a.x - b.x) + (a.y - b.y) * (a.y - b.y) + (a.z - b.z) * (a.z - b.z)

/-- Constructor configuration: `m_dist_tol`, `m_max_dissapeared_frms`,
`m_min_framecount`. -/
structure Config where
  dist_tol : Distance
  max_dissapeared_frms : Nat
  min_framecount : Nat

/- ## Association-list model of `std::map<ObjectID, α>` -/

/-- `map.find(k)` as a read: the stored value, if present. -/
def mfind {α : Type} : List (Nat × α) → Nat → Option α
  | [], _ => none
  | p :: t, k => if p.1 = k then some p.2 else mfind t k

/-- Read with a default (used where the source reads a key that is present in
every reachable state, so no insertion happens). -/
def mfindD {α : Type} (l : List (Nat × α)) (k : Nat) (d : α) : α :=
  (mfind l k).getD d

/-- `map[k] = v`: insert or assign, keeping keys in increasing order. -/
def mset {α : Type} : List (Nat × α) → Nat → α → List (Nat × α)
  | [], k, v => [(k, v)]
  | p :: t, k, v =>
    if k < p.1 then (k, v) :: p :: t
    else if k = p.1 then (k, v) :: t
    else p :: mset t k v

/-- `map.erase(k)`. -/
def merase {α : Type} (l : List (Nat × α)) (k : Nat) : List (Nat × α) :=
  l.filter (fun p => p.1 ≠ k)

/-- The key list, in iteration order. -/
def mkeys {α : Type} (l : List (Nat × α)) : List Nat := l.map Prod.fst

/-- `std::map::operator[]` as a read: returns the stored value, and the map
after the read — the key is default-inserted when absent. -/
def mget {α : Type} (l : List (Nat × α)) (k : Nat) (d : α) : α × List (Nat × α) :=
  match mfind l k with
  | some v => (v, l)
  | none => (d, mset l k d)

/- ## Sorting (model of the two `std::sort` calls) -/

/-- Insert into a sorted list using a strict `<` comparator, after all
elements comparing strictly below the new one. -/
def insertLt {α : Type} (lt : α → α → Bool) (a : α) : List α → List α
  | [] => [a]
  | b :: bs => if lt b a then b :: insertLt lt a bs else a :: b :: bs

/-- Deterministic sort with a strict `<` comparator (see header comment on
`std::sort`). -/
def sortLt {α : Type} (lt : α → α → Bool) : List α → List α
  | [] => []
  | a :: as => insertLt lt a (sortLt lt as)

/- ## Tracker state -/

/-- The `ObjectTracker` member state.  `ObjectID` is a monotonically assigned
integer (spec §3: never reused), modelled as `Nat`. -/
structure Tracker where
  m_active_objects : List (Nat × Object)
  m_uprooted : List (Nat × Bool)
  m_disappeared : List (Nat × Nat)
  m_framecount : List (Nat × Nat)
  m_id_list : List Nat
  m_next_id : Nat
deriving DecidableEq, Repr

/-- The freshly constructed tracker: empty containers.  The first assigned id
is 1 (spec §8's concrete scenario: the first registration yields id = 1; the
initial value of `m_next_id` is set in the header, not in the sources). -/
def initTracker : Tracker := ⟨[], [], [], [], [], 1⟩

/-- `object_count`: `m_active_objects.size()`. -/
def object_count (s : Tracker) : Nat := s.m_active_objects.length

/-- The `for (auto id : m_id_list) to_ret.push_back(m_active_objects[id])`
loop of `active_objects`, threading the map through each `operator[]` read. -/
def collectObjs : List Nat → List (Nat × Object) → List Object × List (Nat × Object)
  | [], m => ([], m)
  | k :: ks, m =>
    let r := mget m k default
    let rest := collectObjs ks r.2
    (r.1 :: rest.1, rest.2)

/-- `active_objects`: the tracked objects in `m_id_list` order.  Returns the
possibly modified state as well, since `operator[]` can insert. -/
def active_objects (s : Tracker) : List Object × Tracker :=
  let r := collectObjs s.m_id_list s.m_active_objects
  (r.1, { s with m_active_objects := r.2 })

/-- `top`: the object of the head of `m_id_list`, if any. -/
def top (s : Tracker) : Option Object × Tracker :=
  if object_count s = 0 then (none, s)
  else
    let r := mget s.m_active_objects (s.m_id_list.headD 0) default
    (some r.1, { s with m_active_objects := r.2 })

/-- The scan inside `topValid`: the first key of `m_active_objects` (ascending
key order) with `m_framecount[k] >= m_min_framecount && false == m_uprooted[k]`.
The two bookkeeping reads use the C++ default values (0, false). -/
def findValid (cfg : Config) (s : Tracker) : Option Nat :=
  (mkeys s.m_active_objects).find?
    (fun k => decide (cfg.min_framecount ≤ mfindD s.m_framecount k 0) &&
      !(mfindD s.m_uprooted k false))

/-- `topValid`: returns the first valid (stabilized, unclaimed) object and
marks it uprooted. -/
def topValid (cfg : Config) (s : Tracker) : Option Object × Tracker :=
  if object_count s = 0 then (none, s)
  else
    match findValid cfg s with
    | some k => (some (mfindD s.m_active_objects k default),
                 { s with m_uprooted := mset s.m_uprooted k true })
    | none => (none, s)

/-- The insertion scan of `register_object`: advance past every id whose
object ranks strictly above the new one, then insert the new id. -/
def insertRanked (m : List (Nat × Object)) (obj : Object) (newId : Nat) :
    List Nat → List Nat
  | [] => [newId]
  | k :: ks =>
    if Object.gtRank (mfindD m k default) obj then k :: insertRanked m obj newId ks
    else newId :: k :: ks

/-- `register_object`: assign the next id, insert into the ranked id list, and
initialize the bookkeeping maps (uprooted = false, disappeared = 0,
framecount = 1). -/
def register_object (s : Tracker) (obj : Object) : Tracker :=
  { m_active_objects := mset s.m_active_objects s.m_next_id obj
    m_uprooted := mset s.m_uprooted s.m_next_id false
    m_disappeared := mset s.m_disappeared s.m_next_id 0
    m_framecount := mset s.m_framecount s.m_next_id 1
    m_id_list := insertRanked s.m_active_objects obj s.m_next_id s.m_id_list
    m_next_id := s.m_next_id + 1 }

/-- `deregister_object`: erase the id from all four maps and from
`m_id_list` (the source loop erases the first occurrence). -/
def deregister_object (s : Tracker) (id : Nat) : Tracker :=
  { m_active_objects := merase s.m_active_objects id
    m_uprooted := merase s.m_uprooted id
    m_disappeared := merase s.m_disappeared id
    m_framecount := merase s.m_framecount id
    m_id_list := s.m_id_list.erase id
    m_next_id := s.m_next_id }

/-- `cleanup_dissapeared`: deregister every id whose disappeared count
exceeds `m_max_dissapeared_frms` (iterating the entries of
`m_disappeared`). -/
def cleanup_dissapeared (cfg : Config) (s : Tracker) : Tracker :=
  s.m_disappeared.foldl
    (fun st p => if cfg.max_dissapeared_frms < p.2 then deregister_object st p.1 else st)
    s

/-- The `new_objs.size() == 0` branch of `update`: every tracked id gets
`m_disappeared[id]++` and `m_framecount[id] = 0`. -/
def age_all (s : Tracker) : Tracker :=
  { s with
    m_disappeared := s.m_disappeared.map (fun p => (p.1, p.2 + 1))
    m_framecount := s.m_disappeared.foldl (fun fc p => mset fc p.1 0) s.m_framecount }

/-- `dist_matrix[i][j]` of the general case (squared, see header comment):
distance between the i-th id of `m_id_list` and the j-th new object. -/
def dist_matrix (s : Tracker) (dets : List Object) (i j : Nat) : Distance :=
  euclidean_distance2 (mfindD s.m_active_objects (s.m_id_list.getD i 0) default)
    (dets.getD j default)

/-- `sorted_ids[i]`: the column indices `0..n-1` sorted by ascending
`dist_matrix[i][·]`. -/
def sorted_ids (s : Tracker) (dets : List Object) (i : Nat) : List Nat :=
  sortLt (fun a b => decide (dist_matrix s dets i a < dist_matrix s dets i b))
    (List.range dets.length)

/-- `active_obj_ids`: the row indices `0..m-1` sorted by ascending best
(row-minimal) distance. -/
def active_obj_ids (s : Tracker) (dets : List Object) : List Nat :=
  sortLt
    (fun a b => decide (dist_matrix s dets a ((sorted_ids s dets a).headD 0) <
      dist_matrix s dets b ((sorted_ids s dets b).headD 0)))
    (List.range (object_count s))

/-- The match outcome for one row: the position/size of the tracked id is
refreshed from the detection and its framecount is incremented. -/
def applyMatch (st : Tracker) (id : Nat) (obj : Object) : Tracker :=
  { st with
    m_active_objects := mset st.m_active_objects id obj
    m_framecount := mset st.m_framecount id (mfindD st.m_framecount id 0 + 1) }

/-- The miss outcome for one row: `m_disappeared[id]++`,
`m_framecount[id] = 0`. -/
def applyMiss (st : Tracker) (id : Nat) : Tracker :=
  { st with
    m_disappeared := mset st.m_disappeared id (mfindD st.m_disappeared id 0 + 1)
    m_framecount := mset st.m_framecount id 0 }

/-- The inner column scan of the matching loop: the first column of `cols`
that is not yet in `used` and whose distance is strictly below the
tolerance. -/
def findMatch (d : Nat → Distance) (tol2 : Distance) (used : List Nat)
    (cols : List Nat) : Option Nat :=
  cols.find? (fun j => !(used.contains j) && decide (d j < tol2))

/-- One iteration of the matching loop, for row index `i`: match the row to
its first admissible column, claiming it, or mark the row a miss. -/
def matchStep (cfg : Config) (s : Tracker) (dets : List Object)
    (acc : Tracker × List Nat) (i : Nat) : Tracker × List Nat :=
  match findMatch (dist_matrix s dets i) (cfg.dist_tol * cfg.dist_tol) acc.2
      (sorted_ids s dets i) with
  | some j => (applyMatch acc.1 (s.m_id_list.getD i 0) (dets.getD j default), j :: acc.2)
  | none => (applyMiss acc.1 (s.m_id_list.getD i 0), acc.2)

/-- The general (`m > 0`, `n > 0`) case of `update`: run the matching loop in
best-distance row order, then register every unclaimed column (iterating row
0's ranking, as the source does). -/
def general_case (cfg : Config) (s : Tracker) (dets : List Object) : Tracker :=
  let r := (active_obj_ids s dets).foldl (matchStep cfg s dets) (s, [])
  (sorted_ids s dets 0).foldl
    (fun st x => if r.2.contains x then st else register_object st (dets.getD x default))
    r.1

/-- The three-way case split of `update`, before cleanup. -/
def update_body (cfg : Config) (s : Tracker) (dets : List Object) : Tracker :=
  if dets.length = 0 then age_all s
  else if object_count s = 0 then dets.foldl register_object s
  else general_case cfg s dets

/-- `update`: the case split followed by `cleanup_dissapeared` (step 4,
executed on every call). -/
def update (cfg : Config) (s : Tracker) (dets : List Object) : Tracker :=
  cleanup_dissapeared cfg (update_body cfg s dets)

/- ## Well-formedness and reachability -/

/-- The keys of the registry. -/
def akeys (s : Tracker) : List Nat := mkeys s.m_active_objects

/-- Well-formedness: all four maps are key-ordered with the same key set,
`m_id_list` is a permutation of the key set, and every key is below
`m_next_id`. -/
def WF (s : Tracker) : Prop :=
  List.Pairwise (· < ·) (akeys s) ∧
  mkeys s.m_uprooted = akeys s ∧
  mkeys s.m_disappeared = akeys s ∧
  mkeys s.m_framecount = akeys s ∧
  s.m_id_list.Perm (akeys s) ∧
  ∀ k ∈ akeys s, k < s.m_next_id

instance (s : Tracker) : Decidable (WF s) := by
  unfold WF; infer_instance

/-- One externally visible mutating call. -/
inductive Step (cfg : Config) : Tracker → Tracker → Prop
  | upd (s : Tracker) (dets : List Object) : Step cfg s (update cfg s dets)
  | claim (s : Tracker) : Step cfg s (topValid cfg s).2

/-- Reflexive-transitive closure of `Step`. -/
inductive Reach (cfg : Config) : Tracker → Tracker → Prop
  | refl (s : Tracker) : Reach cfg s s
  | tail {s t u : Tracker} : Reach cfg s t → Step cfg t u → Reach cfg s u

/-- States reachable from the freshly constructed tracker. -/
def Reachable (cfg : Config) (s : Tracker) : Prop := Reach cfg initTracker s

/-- States reachable using only updates that never enter the general matching
case (empty detection list, or empty registry), plus `topValid` calls. -/
inductive ReachSimple (cfg : Config) : Tracker → Prop
  | init : ReachSimple cfg initTracker
  | upd {s : Tracker} (dets : List Object) : ReachSimple cfg s →
      (dets = [] ∨ object_count s = 0) → ReachSimple cfg (update cfg s dets)
  | claim {s : Tracker} : ReachSimple cfg s → ReachSimple cfg (topValid cfg s).2

/-- Descending order under the ranking relation: no element ranks strictly
above a predecessor. -/
def rankedDesc (l : List Object) : Prop :=
  List.Pairwise (fun a b => Object.gtRank b a = false) l

instance (l : List Object) : Decidable (rankedDesc l) := by
  unfold rankedDesc; infer_instance

/-- The object stored for an id (default-valued read). -/
def lookupObj (s : Tracker) (k : Nat) : Object := mfindD s.m_active_objects k default

/-- The ranked-list invariant: the objects listed by `m_id_list` descend under
the ranking relation. -/
def rankedState (s : Tracker) : Prop :=
  rankedDesc (s.m_id_list.map (lookupObj s))

instance (s : Tracker) : Decidable (rankedState s) := by
  unfold rankedState; infer_instance

/-- The ids currently eligible for `topValid` (ascending id order): valid
framecount and not yet uprooted — exactly the predicate of `findValid`. -/
def elig (cfg : Config) (s : Tracker) : List Nat :=
  (akeys s).filter
    (fun k => decide (cfg.min_framecount ≤ mfindD s.m_framecount k 0) &&
      !(mfindD s.m_uprooted k false))

/-- Iterate `topValid` up to `n` times, collecting the claimed ids (via
`findValid`) and the final state. -/
def runClaims (cfg : Config) : Nat → Tracker → List Nat × Tracker
  | 0, s => ([], s)
  | n + 1, s =>
    match findValid cfg s with
    | none => ([], s)
    | some k =>
      let r := runClaims cfg n (topValid cfg s).2
      (k :: r.1, r.2)

/-- Whether `cleanup_dissapeared`, iterating the snapshot `l` of
`m_disappeared`, deregisters id `x`. -/
def removedBy (cfg : Config) (l : List (Nat × Nat)) (x : Nat) : Bool :=
  l.any (fun p => p.1 == x && decide (cfg.max_dissapeared_frms < p.2))

/- ## Concrete executable scenarios -/

/-- Scenario configuration: distance tolerance 2 (compared squared), 5 missed
frames tolerated, 1 matched frame required for validity. -/
def cfgEx : Config := ⟨2, 5, 1⟩

/-- A large detection at the origin. -/
def objA : Object := ⟨0, 0, 0, 5⟩

/-- A mid-sized detection away from the origin. -/
def objB : Object := ⟨10, 0, 0, 3⟩

/-- A small detection at the origin (same position as `objA`). -/
def objA2 : Object := ⟨0, 0, 0, 1⟩

/-- A small detection at the origin. -/
def objC : Object := ⟨0, 0, 0, 1⟩

/-- One object registered from the fresh tracker. -/
def exReg : Tracker := update cfgEx initTracker [objC]

/-- ... then missed for one frame. -/
def exMiss : Tracker := update cfgEx exReg []

/-- ... then matched again by a detection at its position. -/
def exMatch2 : Tracker := update cfgEx exMiss [objC]

/-- Two objects registered together (ranked `objA` before `objB`). -/
def exTwo : Tracker := update cfgEx initTracker [objA, objB]

/-- The top-ranked object refreshed by a smaller detection (`objA2`), the
other matched in place. -/
def exSwap : Tracker := update cfgEx exTwo [objA2, objB]

/- ## Lemmas: association-list maps -/

theorem mfind_eq_none {α : Type} (l : List (Nat × α)) (k : Nat) :
    mfind l k = none ↔ k ∉ mkeys l := by
  induction l with
  | nil => simp [mfind, mkeys]
  | cons p t ih =>
    simp only [mfind, mkeys, List.map_cons, List.mem_cons]
    by_cases h : p.1 = k
    · simp [h]
    · rw [if_neg h, ih]
      simp only [mkeys]
      constructor
      · intro h1 h2
        rcases h2 with h2 | h2
        · exact h h2.symm
        · exact h1 h2
      · intro h1 h2
        exact h1 (Or.inr h2)

theorem mfind_isSome {α : Type} (l : List (Nat × α)) (k : Nat) (h : k ∈ mkeys l) :
    ∃ v, mfind l k = some v := by
  cases hf : mfind l k with
  | none => exact absurd ((mfind_eq_none l k).mp hf) (by simpa using h)
  | some v => exact ⟨v, rfl⟩

theorem mfind_mset_self {α : Type} (l : List (Nat × α)) (k : Nat) (v : α) :
    mfind (mset l k v) k = some v := by
  induction l with
  | nil => simp [mset, mfind]
  | cons p t ih =>
    simp only [mset]
    by_cases h1 : k < p.1
    · simp [if_pos h1, mfind]
    · rw [if_neg h1]
      by_cases h2 : k = p.1
      · simp [if_pos h2, mfind]
      · rw [if_neg h2]
        simp only [mfind]
        rw [if_neg (fun h => h2 h.symm), ih]

theorem mfind_mset_ne {α : Type} (l : List (Nat × α)) (k k' : Nat) (v : α)
    (h : k' ≠ k) : mfind (mset l k v) k' = mfind l k' := by
  induction l with
  | nil => simp [mset, mfind, Ne.symm h]
  | cons p t ih =>
    simp only [mset]
    by_cases h1 : k < p.1
    · simp only [if_pos h1, mfind]
      rw [if_neg (Ne.symm h)]
    · rw [if_neg h1]
      by_cases h2 : k = p.1
      · subst h2
        simp [mfind, Ne.symm h]
      · rw [if_neg h2]
        simp only [mfind, ih]

theorem mfindD_mset_self {α : Type} (l : List (Nat × α)) (k : Nat) (v d : α) :
    mfindD (mset l k v) k d = v := by
  simp [mfindD, mfind_mset_self]

theorem mfindD_mset_ne {α : Type} (l : List (Nat × α)) (k k' : Nat) (v d : α)
    (h : k' ≠ k) : mfindD (mset l k v) k' d = mfindD l k' d := by
  simp [mfindD, mfind_mset_ne _ _ _ _ h]

theorem mem_mkeys_mset {α : Type} (l : List (Nat × α)) (k k' : Nat) (v : α) :
    k' ∈ mkeys (mset l k v) ↔ k' = k ∨ k' ∈ mkeys l := by
  induction l with
  | nil => simp [mset, mkeys]
  | cons p t ih =>
    simp only [mset]
    by_cases h1 : k < p.1
    · rw [if_pos h1]
      simp [mkeys, List.mem_cons]
    · rw [if_neg h1]
      by_cases h2 : k = p.1
      · subst h2
        rw [if_pos rfl]
        simp only [mkeys, List.map_cons, List.mem_cons]
        tauto
      · rw [if_neg h2]
        simp only [mkeys, List.map_cons, List.mem_cons] at ih ⊢
        tauto

/-- With ordered keys, assigning an existing key leaves the key list
unchanged. -/
theorem mkeys_mset_mem {α : Type} (l : List (Nat × α)) (k : Nat) (v : α)
    (hs : List.Pairwise (· < ·) (mkeys l)) (h : k ∈ mkeys l) :
    mkeys (mset l k v) = mkeys l := by
  induction l with
  | nil => simp [mkeys] at h
  | cons p t ih =>
    simp only [mkeys, List.map_cons, List.mem_cons] at h
    simp only [mkeys, List.map_cons, List.pairwise_cons] at hs
    simp only [mset]
    rcases h with h | h
    · have h1 : ¬ k < p.1 := by omega
      rw [if_neg h1, if_pos h]
      simp only [mkeys, List.map_cons]
      rw [h]
    · have hgt : p.1 < k := hs.1 k (by simpa [mkeys] using h)
      have h1 : ¬ k < p.1 := by omega
      have h2 : ¬ k = p.1 := by omega
      rw [if_neg h1, if_neg h2]
      have ht := ih hs.2 (by simpa [mkeys] using h)
      simp only [mkeys, List.map_cons] at ht ⊢
      rw [ht]

/-- Assigning preserves key order. -/
theorem mkeys_mset_sorted {α : Type} (l : List (Nat × α)) (k : Nat) (v : α)
    (hs : List.Pairwise (· < ·) (mkeys l)) :
    List.Pairwise (· < ·) (mkeys (mset l k v)) := by
  induction l with
  | nil => simp [mset, mkeys]
  | cons p t ih =>
    simp only [mkeys, List.map_cons, List.pairwise_cons] at hs
    simp only [mset]
    by_cases h1 : k < p.1
    · rw [if_pos h1]
      simp only [mkeys, List.map_cons, List.pairwise_cons]
      refine ⟨?_, hs.1, hs.2⟩
      intro x hx
      simp only [List.mem_cons] at hx
      rcases hx with hx | hx
      · omega
      · have := hs.1 x hx
        omega
    · rw [if_neg h1]
      by_cases h2 : k = p.1
      · subst h2
        rw [if_pos rfl]
        simp only [mkeys, List.map_cons, List.pairwise_cons]
        exact ⟨hs.1, hs.2⟩
      · rw [if_neg h2]
        simp only [mkeys, List.map_cons, List.pairwise_cons]
        constructor
        · intro x hx
          have hx2 : x ∈ mkeys (mset t k v) := hx
          rw [mem_mkeys_mset] at hx2
          rcases hx2 with hx2 | hx2
          · omega
          · exact hs.1 x hx2
        · exact ih hs.2

/-- The key list of an assignment depends only on the key list. -/
theorem mkeys_mset_congr {α β : Type} (l₁ : List (Nat × α)) (l₂ : List (Nat × β))
    (k : Nat) (v₁ : α) (v₂ : β) (h : mkeys l₁ = mkeys l₂) :
    mkeys (mset l₁ k v₁) = mkeys (mset l₂ k v₂) := by
  induction l₁ generalizing l₂ with
  | nil =>
    cases l₂ with
    | nil => simp [mset, mkeys]
    | cons q t₂ => simp [mkeys] at h
  | cons p t₁ ih =>
    cases l₂ with
    | nil => simp [mkeys] at h
    | cons q t₂ =>
      simp only [mkeys, List.map_cons, List.cons.injEq] at h
      simp only [mset, h.1]
      by_cases h1 : k < q.1
      · rw [if_pos h1, if_pos h1]
        simp only [mkeys, List.map_cons, h.1]
        rw [show List.map Prod.fst t₁ = List.map Prod.fst t₂ from h.2]
      · rw [if_neg h1, if_neg h1]
        by_cases h2 : k = q.1
        · rw [if_pos h2, if_pos h2]
          simp only [mkeys, List.map_cons]
          rw [show List.map Prod.fst t₁ = List.map Prod.fst t₂ from h.2]
        · rw [if_neg h2, if_neg h2]
          have ht := ih t₂ h.2
          simp only [mkeys, List.map_cons] at ht ⊢
          rw [h.1, ht]

theorem length_mset_mem {α : Type} (l : List (Nat × α)) (k : Nat) (v : α)
    (hs : List.Pairwise (· < ·) (mkeys l)) (h : k ∈ mkeys l) :
    (mset l k v).length = l.length := by
  have := mkeys_mset_mem l k v hs h
  have h1 : (mset l k v).length = (mkeys (mset l k v)).length := by simp [mkeys]
  have h2 : l.length = (mkeys l).length := by simp [mkeys]
  rw [h1, h2, this]

theorem length_mset_new {α : Type} (l : List (Nat × α)) (k : Nat) (v : α)
    (h : k ∉ mkeys l) : (mset l k v).length = l.length + 1 := by
  induction l with
  | nil => simp [mset]
  | cons p t ih =>
    simp only [mkeys, List.map_cons, List.mem_cons] at h
    push_neg at h
    simp only [mset]
    by_cases h1 : k < p.1
    · simp [if_pos h1]
    · rw [if_neg h1, if_neg h.1]
      simp only [List.length_cons]
      rw [ih (by simpa [mkeys] using h.2)]

theorem mfind_merase_ne {α : Type} (l : List (Nat × α)) (k k' : Nat)
    (h : k' ≠ k) : mfind (merase l k) k' = mfind l k' := by
  induction l with
  | nil => simp [merase, mfind]
  | cons p t ih =>
    simp only [merase, List.filter_cons] at ih ⊢
    by_cases hp : p.1 = k
    · rw [if_neg (by simp [hp])]
      have hpk : ¬ p.1 = k' := by rw [hp]; exact Ne.symm h
      conv_rhs => rw [mfind]
      rw [if_neg hpk]
      exact ih
    · rw [if_pos (by simpa using hp)]
      simp only [mfind]
      by_cases hk : p.1 = k'
      · rw [if_pos hk, if_pos hk]
      · rw [if_neg hk, if_neg hk]
        exact ih

theorem mkeys_merase {α : Type} (l : List (Nat × α)) (k : Nat) :
    mkeys (merase l k) = (mkeys l).filter (fun x => x ≠ k) := by
  induction l with
  | nil => simp [merase, mkeys]
  | cons p t ih =>
    simp only [merase, mkeys, List.filter_cons, List.map_cons] at ih ⊢
    by_cases hp : p.1 = k
    · rw [if_neg (by simpa using hp), if_neg (by simpa using hp)]
      exact ih
    · rw [if_pos (by simpa using hp), if_pos (by simpa using hp)]
      simp only [List.map_cons]
      rw [ih]

theorem mget_mem {α : Type} (l : List (Nat × α)) (k : Nat) (d : α)
    (h : k ∈ mkeys l) : mget l k d = (mfindD l k d, l) := by
  rcases mfind_isSome l k h with ⟨v, hv⟩
  simp [mget, hv, mfindD]

/- ## Lemmas: sorting and scanning -/

theorem perm_insertLt {α : Type} (lt : α → α → Bool) (a : α) (l : List α) :
    (insertLt lt a l).Perm (a :: l) := by
  induction l with
  | nil => simp [insertLt]
  | cons b bs ih =>
    simp only [insertLt]
    by_cases h : lt b a
    · rw [if_pos h]
      exact (ih.cons b).trans (List.Perm.swap a b bs)
    · rw [if_neg h]

theorem perm_sortLt {α : Type} (lt : α → α → Bool) (l : List α) :
    (sortLt lt l).Perm l := by
  induction l with
  | nil => simp [sortLt]
  | cons a as ih =>
    exact (perm_insertLt lt a (sortLt lt as)).trans (ih.cons a)

theorem mem_sortLt {α : Type} (lt : α → α → Bool) (l : List α) (x : α) :
    x ∈ sortLt lt l ↔ x ∈ l :=
  (perm_sortLt lt l).mem_iff

theorem find?_eq_head_filter {α : Type} (p : α → Bool) (l : List α) :
    l.find? p = (l.filter p).head? := by
  induction l with
  | nil => rfl
  | cons a t ih =>
    cases h : p a with
    | true => rw [List.find?_cons_of_pos t h, List.filter_cons_of_pos h, List.head?_cons]
    | false => rw [List.find?_cons_of_neg t (by simp [h]), List.filter_cons_of_neg (by simp [h]), ih]

theorem insertRanked_perm (m : List (Nat × Object)) (obj : Object) (newId : Nat)
    (l : List Nat) : (insertRanked m obj newId l).Perm (newId :: l) := by
  induction l with
  | nil => simp [insertRanked]
  | cons k ks ih =>
    simp only [insertRanked]
    by_cases h : Object.gtRank (mfindD m k default) obj
    · rw [if_pos h]
      exact (ih.cons k).trans (List.Perm.swap newId k ks)
    · rw [if_neg h]

/- ## Lemmas: register / deregister preserve well-formedness -/

theorem akeys_nodup {s : Tracker} (h : WF s) : (akeys s).Nodup :=
  h.1.imp Nat.ne_of_lt

theorem mkeys_mset_perm_new {α : Type} (l : List (Nat × α)) (k : Nat) (v : α)
    (h : k ∉ mkeys l) : (mkeys (mset l k v)).Perm (k :: mkeys l) := by
  induction l with
  | nil => simp [mset, mkeys]
  | cons p t ih =>
    simp only [mkeys, List.map_cons, List.mem_cons] at h
    push_neg at h
    simp only [mset]
    by_cases h1 : k < p.1
    · rw [if_pos h1]
      simp [mkeys]
    · rw [if_neg h1, if_neg h.1]
      simp only [mkeys, List.map_cons]
      have := (ih (by simpa [mkeys] using h.2)).cons p.1
      exact this.trans (List.Perm.swap k p.1 (List.map Prod.fst t))

theorem next_id_fresh {s : Tracker} (h : WF s) : s.m_next_id ∉ akeys s := by
  intro hmem
  exact absurd (h.2.2.2.2.2 _ hmem) (by omega)

theorem WF_register (s : Tracker) (obj : Object) (h : WF s) :
    WF (register_object s obj) := by
  obtain ⟨hsort, hu, hd, hf, hp, hb⟩ := h
  have hfresh : s.m_next_id ∉ akeys s := next_id_fresh ⟨hsort, hu, hd, hf, hp, hb⟩
  refine ⟨?_, ?_, ?_, ?_, ?_, ?_⟩
  · exact mkeys_mset_sorted _ _ _ hsort
  · exact mkeys_mset_congr _ _ _ _ _ hu
  · exact mkeys_mset_congr _ _ _ _ _ hd
  · exact mkeys_mset_congr _ _ _ _ _ hf
  · exact (insertRanked_perm _ _ _ _).trans
      ((hp.cons s.m_next_id).trans (mkeys_mset_perm_new _ _ _ hfresh).symm)
  · intro k hk
    have hk2 : k ∈ mkeys (mset s.m_active_objects s.m_next_id obj) := hk
    rw [mem_mkeys_mset] at hk2
    simp only [register_object]
    rcases hk2 with hk2 | hk2
    · omega
    · have := hb k hk2
      omega

theorem WF_deregister (s : Tracker) (id : Nat) (h : WF s) :
    WF (deregister_object s id) := by
  obtain ⟨hsort, hu, hd, hf, hp, hb⟩ := h
  have hnd : (akeys s).Nodup := List.Pairwise.imp Nat.ne_of_lt hsort
  refine ⟨?_, ?_, ?_, ?_, ?_, ?_⟩
  · have : akeys (deregister_object s id) = (akeys s).filter (fun x => x ≠ id) :=
      mkeys_merase _ _
    rw [this]
    exact hsort.filter _
  · show mkeys (merase s.m_uprooted id) = mkeys (merase s.m_active_objects id)
    rw [mkeys_merase, mkeys_merase, hu]
    rfl
  · show mkeys (merase s.m_disappeared id) = mkeys (merase s.m_active_objects id)
    rw [mkeys_merase, mkeys_merase, hd]
    rfl
  · show mkeys (merase s.m_framecount id) = mkeys (merase s.m_active_objects id)
    rw [mkeys_merase, mkeys_merase, hf]
    rfl
  · show (s.m_id_list.erase id).Perm (mkeys (merase s.m_active_objects id))
    rw [mkeys_merase]
    have h1 : (s.m_id_list.erase id).Perm ((akeys s).erase id) := hp.erase id
    have h2 : (akeys s).erase id = (akeys s).filter (fun x => x ≠ id) := by
      rw [hnd.erase_eq_filter]
      exact List.filter_congr (fun a _ => by by_cases hx : a = id <;> simp [hx])
    show (s.m_id_list.erase id).Perm (List.filter (fun x => decide (x ≠ id)) (akeys s))
    rw [← h2]
    exact h1
  · intro k hk
    have hk2 : k ∈ mkeys (merase s.m_active_objects id) := hk
    rw [mkeys_merase, List.mem_filter] at hk2
    exact hb k hk2.1

/- ## Lemmas: cleanup_dissapeared -/

theorem removedBy_mem (cfg : Config) (l : List (Nat × Nat)) (k : Nat)
    (h : removedBy cfg l k = true) : k ∈ mkeys l := by
  induction l with
  | nil => simp [removedBy] at h
  | cons p t ih =>
    simp only [removedBy, List.any_cons, Bool.or_eq_true, Bool.and_eq_true, beq_iff_eq] at h
    simp only [mkeys, List.map_cons, List.mem_cons]
    rcases h with ⟨h1, _⟩ | h
    · exact Or.inl h1.symm
    · exact Or.inr (by simpa [mkeys] using ih (by simpa [removedBy] using h))

theorem removedBy_iff (cfg : Config) (l : List (Nat × Nat)) (k : Nat)
    (hnd : (mkeys l).Nodup) :
    removedBy cfg l k = true ↔ ∃ v, mfind l k = some v ∧ cfg.max_dissapeared_frms < v := by
  induction l with
  | nil => simp [removedBy, mfind]
  | cons p t ih =>
    simp only [mkeys, List.map_cons, List.nodup_cons] at hnd
    simp only [removedBy, List.any_cons, Bool.or_eq_true, Bool.and_eq_true, beq_iff_eq,
      decide_eq_true_eq, mfind]
    by_cases hk : p.1 = k
    · rw [if_pos hk]
      constructor
      · intro h
        rcases h with ⟨_, h2⟩ | h
        · exact ⟨p.2, rfl, h2⟩
        · exfalso
          have := removedBy_mem cfg t k (by simpa [removedBy] using h)
          rw [← hk] at this
          exact hnd.1 (by simpa [mkeys] using this)
      · intro ⟨v, hv, hlt⟩
        have hpv : p.2 = v := by simpa using hv
        exact Or.inl ⟨hk, by omega⟩
    · rw [if_neg hk]
      rw [show removedBy cfg t k = t.any fun p => p.1 == k && decide (cfg.max_dissapeared_frms < p.2) from rfl] at ih
      rw [← ih (by simpa [mkeys] using hnd.2)]
      constructor
      · intro h
        rcases h with ⟨h1, _⟩ | h
        · exact absurd h1 hk
        · exact h
      · exact Or.inr

theorem cleanup_fold_akeys (cfg : Config) (l : List (Nat × Nat)) (st : Tracker) :
    akeys (List.foldl
      (fun st p => if cfg.max_dissapeared_frms < p.2 then deregister_object st p.1 else st)
      st l) = (akeys st).filter (fun x => !(removedBy cfg l x)) := by
  induction l generalizing st with
  | nil =>
    simp only [List.foldl_nil, removedBy, List.any_nil, Bool.not_false]
    rw [List.filter_true]
  | cons p t ih =>
    simp only [List.foldl_cons]
    by_cases hc : cfg.max_dissapeared_frms < p.2
    · rw [if_pos hc, ih]
      have hk : akeys (deregister_object st p.1) =
          (akeys st).filter (fun x => x ≠ p.1) := mkeys_merase _ _
      rw [hk, List.filter_filter]
      refine List.filter_congr (fun x _ => ?_)
      have hr : removedBy cfg (p :: t) x = ((p.1 == x) || removedBy cfg t x) := by
        simp [removedBy, List.any_cons, hc]
      rw [hr]
      by_cases hx : x = p.1
      · simp [hx]
      · have hx2 : ¬ p.1 = x := fun hh => hx hh.symm
        simp [beq_iff_eq, hx, hx2]
    · rw [if_neg hc, ih]
      refine List.filter_congr (fun x _ => ?_)
      simp [removedBy, hc]

theorem cleanup_fold_preserve (cfg : Config) (l : List (Nat × Nat)) (st : Tracker)
    (k : Nat) (h : removedBy cfg l k = false) :
    (mfind (List.foldl
        (fun st p => if cfg.max_dissapeared_frms < p.2 then deregister_object st p.1 else st)
        st l).m_active_objects k = mfind st.m_active_objects k) ∧
    (mfind (List.foldl
        (fun st p => if cfg.max_dissapeared_frms < p.2 then deregister_object st p.1 else st)
        st l).m_uprooted k = mfind st.m_uprooted k) ∧
    (mfind (List.foldl
        (fun st p => if cfg.max_dissapeared_frms < p.2 then deregister_object st p.1 else st)
        st l).m_disappeared k = mfind st.m_disappeared k) ∧
    (mfind (List.foldl
        (fun st p => if cfg.max_dissapeared_frms < p.2 then deregister_object st p.1 else st)
        st l).m_framecount k = mfind st.m_framecount k) ∧
    (List.foldl
        (fun st p => if cfg.max_dissapeared_frms < p.2 then deregister_object st p.1 else st)
        st l).m_next_id = st.m_next_id := by
  induction l generalizing st with
  | nil => simp
  | cons p t ih =>
    simp only [removedBy, List.any_cons, Bool.or_eq_false_iff, Bool.and_eq_false_iff] at h
    simp only [List.foldl_cons]
    by_cases hc : cfg.max_dissapeared_frms < p.2
    · rw [if_pos hc]
      have hk : k ≠ p.1 := by
        rcases h.1 with h1 | h1
        · intro hkk
          rw [hkk] at h1
          simp at h1
        · simp [hc] at h1
      have ht := ih (deregister_object st p.1) (by simpa [removedBy] using h.2)
      refine ⟨?_, ?_, ?_, ?_, ?_⟩
      · rw [ht.1]
        exact mfind_merase_ne _ _ _ hk
      · rw [ht.2.1]
        exact mfind_merase_ne _ _ _ hk
      · rw [ht.2.2.1]
        exact mfind_merase_ne _ _ _ hk
      · rw [ht.2.2.2.1]
        exact mfind_merase_ne _ _ _ hk
      · exact ht.2.2.2.2
    · rw [if_neg hc]
      exact ih st (by simpa [removedBy] using h.2)

theorem cleanup_fold_WF (cfg : Config) (l : List (Nat × Nat)) (st : Tracker)
    (h : WF st) :
    WF (List.foldl
      (fun st p => if cfg.max_dissapeared_frms < p.2 then deregister_object st p.1 else st)
      st l) := by
  induction l generalizing st with
  | nil => exact h
  | cons p t ih =>
    simp only [List.foldl_cons]
    by_cases hc : cfg.max_dissapeared_frms < p.2
    · rw [if_pos hc]
      exact ih _ (WF_deregister _ _ h)
    · rw [if_neg hc]
      exact ih _ h

theorem WF_cleanup (cfg : Config) (s : Tracker) (h : WF s) :
    WF (cleanup_dissapeared cfg s) :=
  cleanup_fold_WF cfg _ s h

/-- The registry keys after cleanup: exactly the previous keys whose
disappeared count does not exceed the tolerance. -/
theorem mem_akeys_cleanup (cfg : Config) (s : Tracker) (h : WF s) (k : Nat) :
    k ∈ akeys (cleanup_dissapeared cfg s) ↔
      k ∈ akeys s ∧ mfindD s.m_disappeared k 0 ≤ cfg.max_dissapeared_frms := by
  obtain ⟨hsort, hu, hd, hf, hp, hb⟩ := h
  have hnd : (mkeys s.m_disappeared).Nodup := by
    rw [hd]
    exact List.Pairwise.imp Nat.ne_of_lt hsort
  rw [show cleanup_dissapeared cfg s = List.foldl
      (fun st p => if cfg.max_dissapeared_frms < p.2 then deregister_object st p.1 else st)
      s s.m_disappeared from rfl, cleanup_fold_akeys, List.mem_filter]
  constructor
  · intro ⟨h1, h2⟩
    refine ⟨h1, ?_⟩
    rw [Bool.not_eq_true'] at h2
    rcases mfind_isSome s.m_disappeared k (by rw [hd]; exact h1) with ⟨v, hv⟩
    have hno : ¬ (removedBy cfg s.m_disappeared k = true) := by rw [h2]; simp
    rw [removedBy_iff cfg _ _ hnd] at hno
    push_neg at hno
    have := hno v hv
    rw [mfindD, hv]
    simp only [Option.getD_some]
    omega
  · intro ⟨h1, h2⟩
    refine ⟨h1, ?_⟩
    cases hrb : removedBy cfg s.m_disappeared k with
    | false => simp
    | true =>
      exfalso
      rw [removedBy_iff cfg _ _ hnd] at hrb
      rcases hrb with ⟨v, hv, hlt⟩
      rw [mfindD, hv] at h2
      simp only [Option.getD_some] at h2
      omega

/- ## Lemmas: register_object and the empty-registry branch -/

theorem mem_mset {α : Type} (l : List (Nat × α)) (k : Nat) (v : α)
    (p : Nat × α) (h : p ∈ mset l k v) : p = (k, v) ∨ p ∈ l := by
  induction l with
  | nil => simpa [mset] using h
  | cons q t ih =>
    simp only [mset] at h
    by_cases h1 : k < q.1
    · rw [if_pos h1] at h
      simpa using h
    · rw [if_neg h1] at h
      by_cases h2 : k = q.1
      · rw [if_pos h2] at h
        simp only [List.mem_cons] at h ⊢
        tauto
      · rw [if_neg h2] at h
        simp only [List.mem_cons] at h ⊢
        rcases h with h | h
        · tauto
        · rcases ih h with h | h <;> tauto

theorem mem_akeys_register (s : Tracker) (obj : Object) (k : Nat) :
    k ∈ akeys (register_object s obj) ↔ k = s.m_next_id ∨ k ∈ akeys s :=
  mem_mkeys_mset _ _ _ _

theorem WF_fold_register (dets : List Object) (s : Tracker) (h : WF s) :
    WF (List.foldl register_object s dets) := by
  induction dets generalizing s with
  | nil => exact h
  | cons d ds ih => exact ih _ (WF_register s d h)

theorem count_register (s : Tracker) (obj : Object) (h : WF s) :
    object_count (register_object s obj) = object_count s + 1 :=
  length_mset_new _ _ _ (next_id_fresh h)

theorem count_fold_register (dets : List Object) (s : Tracker) (h : WF s) :
    object_count (List.foldl register_object s dets) = object_count s + dets.length := by
  induction dets generalizing s with
  | nil => rfl
  | cons d ds ih =>
    simp only [List.foldl_cons, List.length_cons]
    rw [ih _ (WF_register s d h), count_register s d h]
    omega

theorem next_fold_register (dets : List Object) (s : Tracker) :
    s.m_next_id ≤ (List.foldl register_object s dets).m_next_id := by
  induction dets generalizing s with
  | nil => exact le_refl _
  | cons d ds ih =>
    simp only [List.foldl_cons]
    have h1 := ih (register_object s d)
    have h2 : (register_object s d).m_next_id = s.m_next_id + 1 := rfl
    omega

theorem akeys_fold_register_mono (dets : List Object) (s : Tracker) (k : Nat)
    (h : k ∈ akeys s) : k ∈ akeys (List.foldl register_object s dets) := by
  induction dets generalizing s with
  | nil => exact h
  | cons d ds ih =>
    exact ih _ ((mem_akeys_register s d k).mpr (Or.inr h))

theorem mem_akeys_fold_register (dets : List Object) (s : Tracker) (k : Nat)
    (h : k ∈ akeys (List.foldl register_object s dets)) :
    k ∈ akeys s ∨ s.m_next_id ≤ k := by
  induction dets generalizing s with
  | nil => exact Or.inl h
  | cons d ds ih =>
    simp only [List.foldl_cons] at h
    rcases ih _ h with h | h
    · rcases (mem_akeys_register s d k).mp h with h | h
      · omega
      · exact Or.inl h
    · simp only [register_object] at h
      omega

theorem mfind_fold_register_old (dets : List Object) (s : Tracker) (k : Nat)
    (h : k < s.m_next_id) :
    mfind (List.foldl register_object s dets).m_active_objects k =
        mfind s.m_active_objects k ∧
    mfind (List.foldl register_object s dets).m_uprooted k = mfind s.m_uprooted k ∧
    mfind (List.foldl register_object s dets).m_disappeared k = mfind s.m_disappeared k ∧
    mfind (List.foldl register_object s dets).m_framecount k = mfind s.m_framecount k := by
  induction dets generalizing s with
  | nil => exact ⟨rfl, rfl, rfl, rfl⟩
  | cons d ds ih =>
    simp only [List.foldl_cons]
    have hne : k ≠ s.m_next_id := by omega
    have hlt : k < (register_object s d).m_next_id := by
      simp only [register_object]
      omega
    have ht := ih (register_object s d) hlt
    refine ⟨?_, ?_, ?_, ?_⟩
    · rw [ht.1]
      exact mfind_mset_ne _ _ _ _ hne
    · rw [ht.2.1]
      exact mfind_mset_ne _ _ _ _ hne
    · rw [ht.2.2.1]
      exact mfind_mset_ne _ _ _ _ hne
    · rw [ht.2.2.2]
      exact mfind_mset_ne _ _ _ _ hne

theorem fold_register_values (dets : List Object) (s : Tracker) (h : WF s)
    (d : Object) (hd : d ∈ dets) :
    ∃ k, k ∈ akeys (List.foldl register_object s dets) ∧
      mfind (List.foldl register_object s dets).m_active_objects k = some d := by
  induction dets generalizing s with
  | nil => simp at hd
  | cons d0 ds ih =>
    simp only [List.foldl_cons]
    rcases List.mem_cons.mp hd with hd | hd
    · subst hd
      refine ⟨s.m_next_id, ?_, ?_⟩
      · exact akeys_fold_register_mono ds _ _
          ((mem_akeys_register s d _).mpr (Or.inl rfl))
      · have hlt : s.m_next_id < (register_object s d).m_next_id := by
          simp only [register_object]
          omega
        rw [(mfind_fold_register_old ds (register_object s d) _ hlt).1]
        exact mfind_mset_self _ _ _
    · exact ih _ (WF_register s d0 h) hd

theorem fold_register_disappeared_zero (dets : List Object) (s : Tracker)
    (h : ∀ p ∈ s.m_disappeared, p.2 = 0) :
    ∀ p ∈ (List.foldl register_object s dets).m_disappeared, p.2 = 0 := by
  induction dets generalizing s with
  | nil => exact h
  | cons d ds ih =>
    refine ih _ ?_
    intro p hp
    rcases mem_mset _ _ _ _ hp with hp | hp
    · rw [hp]
    · exact h p hp

theorem cleanup_of_small (cfg : Config) (s : Tracker)
    (h : ∀ p ∈ s.m_disappeared, p.2 ≤ cfg.max_dissapeared_frms) :
    cleanup_dissapeared cfg s = s := by
  show List.foldl _ s s.m_disappeared = s
  have hgen : ∀ (l : List (Nat × Nat)) (st : Tracker),
      (∀ p ∈ l, p.2 ≤ cfg.max_dissapeared_frms) →
      List.foldl (fun st p =>
        if cfg.max_dissapeared_frms < p.2 then deregister_object st p.1 else st) st l = st := by
    intro l
    induction l with
    | nil => intro st _; rfl
    | cons p t ih =>
      intro st hall
      simp only [List.foldl_cons]
      rw [if_neg (by have := hall p (by simp); omega)]
      exact ih st (fun q hq => hall q (by simp [hq]))
  exact hgen _ s h

/- ## Lemmas: the empty-detections branch (age_all) -/

theorem mfind_map_incr (l : List (Nat × Nat)) (k : Nat) :
    mfind (l.map (fun p => (p.1, p.2 + 1))) k = (mfind l k).map (· + 1) := by
  induction l with
  | nil => rfl
  | cons p t ih =>
    simp only [List.map_cons, mfind]
    by_cases h : p.1 = k
    · rw [if_pos h, if_pos h]
      rfl
    · rw [if_neg h, if_neg h]
      exact ih

theorem mkeys_map_incr (l : List (Nat × Nat)) :
    mkeys (l.map (fun p => (p.1, p.2 + 1))) = mkeys l := by
  simp [mkeys, List.map_map]

theorem mkeys_fold_mset0 (l : List (Nat × Nat)) (fc : List (Nat × Nat))
    (hs : List.Pairwise (· < ·) (mkeys fc)) (hsub : ∀ p ∈ l, p.1 ∈ mkeys fc) :
    mkeys (List.foldl (fun fc p => mset fc p.1 0) fc l) = mkeys fc ∧
    List.Pairwise (· < ·) (mkeys (List.foldl (fun fc p => mset fc p.1 0) fc l)) := by
  induction l generalizing fc with
  | nil => exact ⟨rfl, hs⟩
  | cons p t ih =>
    simp only [List.foldl_cons]
    have hk : mkeys (mset fc p.1 0) = mkeys fc :=
      mkeys_mset_mem _ _ _ hs (hsub p (by simp))
    have hs2 : List.Pairwise (· < ·) (mkeys (mset fc p.1 0)) := by rw [hk]; exact hs
    have := ih (mset fc p.1 0) hs2 (fun q hq => by rw [hk]; exact hsub q (by simp [hq]))
    rw [hk] at this
    exact this

theorem mfind_fold_mset0 (l : List (Nat × Nat)) (fc : List (Nat × Nat)) (k : Nat)
    (hnd : (mkeys l).Nodup) :
    (k ∈ mkeys l → mfind (List.foldl (fun fc p => mset fc p.1 0) fc l) k = some 0) ∧
    (k ∉ mkeys l → mfind (List.foldl (fun fc p => mset fc p.1 0) fc l) k = mfind fc k) := by
  induction l generalizing fc with
  | nil => simp [mkeys]
  | cons p t ih =>
    simp only [mkeys, List.map_cons, List.nodup_cons] at hnd
    simp only [List.foldl_cons, mkeys, List.map_cons, List.mem_cons]
    constructor
    · intro hk
      rcases hk with hk | hk
      · subst hk
        rw [(ih (mset fc p.1 0) hnd.2).2 (by simpa [mkeys] using hnd.1)]
        exact mfind_mset_self _ _ _
      · exact (ih _ hnd.2).1 (by simpa [mkeys] using hk)
    · intro hk
      push_neg at hk
      rw [(ih _ hnd.2).2 (by simpa [mkeys] using hk.2)]
      exact mfind_mset_ne _ _ _ _ hk.1

theorem WF_age_all (s : Tracker) (h : WF s) : WF (age_all s) := by
  obtain ⟨hsort, hu, hd, hf, hp, hb⟩ := h
  have hfk : List.Pairwise (· < ·) (mkeys s.m_framecount) := by rw [hf]; exact hsort
  have hsub : ∀ p ∈ s.m_disappeared, p.1 ∈ mkeys s.m_framecount := by
    intro p hp
    rw [hf, ← hd]
    exact List.mem_map_of_mem Prod.fst hp
  have hfold := mkeys_fold_mset0 s.m_disappeared s.m_framecount hfk hsub
  refine ⟨hsort, hu, ?_, ?_, hp, hb⟩
  · show mkeys (s.m_disappeared.map (fun p => (p.1, p.2 + 1))) = akeys s
    rw [mkeys_map_incr, hd]
  · show mkeys (List.foldl (fun fc p => mset fc p.1 0) s.m_framecount s.m_disappeared) = akeys s
    rw [hfold.1, hf]

/- ## Lemmas: the matching loop of the general case -/

theorem akeys_applyMatch (st : Tracker) (id : Nat) (obj : Object)
    (h : WF st) (hid : id ∈ akeys st) : akeys (applyMatch st id obj) = akeys st :=
  mkeys_mset_mem _ _ _ h.1 hid

theorem WF_applyMatch (st : Tracker) (id : Nat) (obj : Object)
    (h : WF st) (hid : id ∈ akeys st) : WF (applyMatch st id obj) := by
  obtain ⟨hsort, hu, hd, hf, hp, hb⟩ := h
  have hka : mkeys (mset st.m_active_objects id obj) = akeys st :=
    mkeys_mset_mem _ _ _ hsort hid
  have hkf : mkeys (mset st.m_framecount id (mfindD st.m_framecount id 0 + 1)) =
      mkeys st.m_framecount := by
    refine mkeys_mset_mem _ _ _ ?_ ?_
    · rw [hf]; exact hsort
    · rw [hf]; exact hid
  refine ⟨?_, ?_, ?_, ?_, ?_, ?_⟩
  · show List.Pairwise (· < ·) (mkeys (mset st.m_active_objects id obj))
    rw [hka]; exact hsort
  · show mkeys st.m_uprooted = mkeys (mset st.m_active_objects id obj)
    rw [hka]; exact hu
  · show mkeys st.m_disappeared = mkeys (mset st.m_active_objects id obj)
    rw [hka]; exact hd
  · show mkeys (mset st.m_framecount id (mfindD st.m_framecount id 0 + 1)) =
      mkeys (mset st.m_active_objects id obj)
    rw [hka, hkf]; exact hf
  · show st.m_id_list.Perm (mkeys (mset st.m_active_objects id obj))
    rw [hka]; exact hp
  · intro k hk
    have : k ∈ akeys st := by rw [← hka]; exact hk
    exact hb k this

theorem akeys_applyMiss (st : Tracker) (id : Nat) (h : WF st) (hid : id ∈ akeys st) :
    akeys (applyMiss st id) = akeys st := rfl

theorem WF_applyMiss (st : Tracker) (id : Nat) (h : WF st) (hid : id ∈ akeys st) :
    WF (applyMiss st id) := by
  obtain ⟨hsort, hu, hd, hf, hp, hb⟩ := h
  have hkd : mkeys (mset st.m_disappeared id (mfindD st.m_disappeared id 0 + 1)) =
      mkeys st.m_disappeared := by
    refine mkeys_mset_mem _ _ _ ?_ ?_
    · rw [hd]; exact hsort
    · rw [hd]; exact hid
  have hkf : mkeys (mset st.m_framecount id 0) = mkeys st.m_framecount := by
    refine mkeys_mset_mem _ _ _ ?_ ?_
    · rw [hf]; exact hsort
    · rw [hf]; exact hid
  refine ⟨hsort, hu, ?_, ?_, hp, hb⟩
  · show mkeys (mset st.m_disappeared id (mfindD st.m_disappeared id 0 + 1)) = akeys st
    rw [hkd]; exact hd
  · show mkeys (mset st.m_framecount id 0) = akeys st
    rw [hkf]; exact hf

/-- The matching fold leaves the key set, id list, next id and uprooted map
unchanged, and preserves well-formedness.  `s` is the pre-update state whose
id list indexes the rows. -/
theorem fold_matchStep_inv (cfg : Config) (s : Tracker) (dets : List Object)
    (rows : List Nat) (acc : Tracker × List Nat)
    (hW : WF acc.1) (hkeys : akeys acc.1 = akeys s)
    (hrows : ∀ i ∈ rows, i < s.m_id_list.length)
    (hWs : WF s) :
    WF (rows.foldl (matchStep cfg s dets) acc).1 ∧
    akeys (rows.foldl (matchStep cfg s dets) acc).1 = akeys s ∧
    (rows.foldl (matchStep cfg s dets) acc).1.m_id_list = acc.1.m_id_list ∧
    (rows.foldl (matchStep cfg s dets) acc).1.m_next_id = acc.1.m_next_id ∧
    (rows.foldl (matchStep cfg s dets) acc).1.m_uprooted = acc.1.m_uprooted := by
  induction rows generalizing acc with
  | nil => exact ⟨hW, hkeys, rfl, rfl, rfl⟩
  | cons r rs ih =>
    have hr : r < s.m_id_list.length := hrows r (by simp)
    have hidmem : s.m_id_list.getD r 0 ∈ s.m_id_list := by
      rw [List.getD_eq_getElem s.m_id_list 0 hr]
      exact List.getElem_mem hr
    have hid : s.m_id_list.getD r 0 ∈ akeys acc.1 := by
      rw [hkeys]
      exact hWs.2.2.2.2.1.mem_iff.mp hidmem
    simp only [List.foldl_cons]
    have hstep : WF (matchStep cfg s dets acc r).1 ∧
        akeys (matchStep cfg s dets acc r).1 = akeys s ∧
        (matchStep cfg s dets acc r).1.m_id_list = acc.1.m_id_list ∧
        (matchStep cfg s dets acc r).1.m_next_id = acc.1.m_next_id ∧
        (matchStep cfg s dets acc r).1.m_uprooted = acc.1.m_uprooted := by
      unfold matchStep
      cases hf : findMatch (dist_matrix s dets r) (cfg.dist_tol * cfg.dist_tol) acc.2
          (sorted_ids s dets r) with
      | some j =>
        refine ⟨WF_applyMatch _ _ _ hW hid, ?_, rfl, rfl, rfl⟩
        rw [akeys_applyMatch _ _ _ hW hid, hkeys]
      | none =>
        refine ⟨WF_applyMiss _ _ hW hid, ?_, rfl, rfl, rfl⟩
        rw [akeys_applyMiss _ _ hW hid, hkeys]
    have := ih (matchStep cfg s dets acc r) hstep.1 hstep.2.1
      (fun i hi => hrows i (by simp [hi]))
    refine ⟨this.1, this.2.1, ?_, ?_, ?_⟩
    · rw [this.2.2.1, hstep.2.2.1]
    · rw [this.2.2.2.1, hstep.2.2.2.1]
    · rw [this.2.2.2.2, hstep.2.2.2.2]

/-- Rows whose id differs from `id0` never touch `id0`'s entries. -/
theorem fold_matchStep_untouched (cfg : Config) (s : Tracker) (dets : List Object)
    (rows : List Nat) (acc : Tracker × List Nat) (id0 : Nat)
    (h : ∀ i ∈ rows, s.m_id_list.getD i 0 ≠ id0) :
    mfind (rows.foldl (matchStep cfg s dets) acc).1.m_active_objects id0 =
        mfind acc.1.m_active_objects id0 ∧
    mfind (rows.foldl (matchStep cfg s dets) acc).1.m_disappeared id0 =
        mfind acc.1.m_disappeared id0 ∧
    mfind (rows.foldl (matchStep cfg s dets) acc).1.m_framecount id0 =
        mfind acc.1.m_framecount id0 := by
  induction rows generalizing acc with
  | nil => exact ⟨rfl, rfl, rfl⟩
  | cons r rs ih =>
    have hne : id0 ≠ s.m_id_list.getD r 0 := fun hh => h r (by simp) hh.symm
    simp only [List.foldl_cons]
    have hstep : mfind (matchStep cfg s dets acc r).1.m_active_objects id0 =
          mfind acc.1.m_active_objects id0 ∧
        mfind (matchStep cfg s dets acc r).1.m_disappeared id0 =
          mfind acc.1.m_disappeared id0 ∧
        mfind (matchStep cfg s dets acc r).1.m_framecount id0 =
          mfind acc.1.m_framecount id0 := by
      unfold matchStep
      cases hf : findMatch (dist_matrix s dets r) (cfg.dist_tol * cfg.dist_tol) acc.2
          (sorted_ids s dets r) with
      | some j =>
        exact ⟨mfind_mset_ne _ _ _ _ hne, rfl, mfind_mset_ne _ _ _ _ hne⟩
      | none =>
        exact ⟨rfl, mfind_mset_ne _ _ _ _ hne, mfind_mset_ne _ _ _ _ hne⟩
    have ht := ih (matchStep cfg s dets acc r) (fun i hi => h i (by simp [hi]))
    exact ⟨ht.1.trans hstep.1, ht.2.1.trans hstep.2.1, ht.2.2.trans hstep.2.2⟩

theorem nodup_map_getD (L : List Nat) (rows : List Nat) (hndL : L.Nodup)
    (hndR : rows.Nodup) (hlt : ∀ i ∈ rows, i < L.length) :
    (rows.map (fun i => L.getD i 0)).Nodup := by
  refine List.Nodup.map_on ?_ hndR
  intro x hx y hy hxy
  have hx2 : x < L.length := hlt x hx
  have hy2 : y < L.length := hlt y hy
  rw [List.getD_eq_getElem L 0 hx2, List.getD_eq_getElem L 0 hy2] at hxy
  exact (hndL.getElem_inj_iff).mp hxy

/-- Each row processed by the matching loop ends with exactly one of the two
outcomes for its id: a match (framecount incremented, disappeared count
UNCHANGED) or a miss (disappeared count incremented, framecount zeroed). -/
theorem fold_matchStep_shape (cfg : Config) (s : Tracker) (dets : List Object)
    (rows : List Nat) (acc : Tracker × List Nat) (i0 : Nat)
    (hmem : i0 ∈ rows)
    (hnd : (rows.map (fun i => s.m_id_list.getD i 0)).Nodup) :
    (mfindD (rows.foldl (matchStep cfg s dets) acc).1.m_disappeared
          (s.m_id_list.getD i0 0) 0 =
        mfindD acc.1.m_disappeared (s.m_id_list.getD i0 0) 0 ∧
      mfindD (rows.foldl (matchStep cfg s dets) acc).1.m_framecount
          (s.m_id_list.getD i0 0) 0 =
        mfindD acc.1.m_framecount (s.m_id_list.getD i0 0) 0 + 1) ∨
    (mfindD (rows.foldl (matchStep cfg s dets) acc).1.m_disappeared
          (s.m_id_list.getD i0 0) 0 =
        mfindD acc.1.m_disappeared (s.m_id_list.getD i0 0) 0 + 1 ∧
      mfindD (rows.foldl (matchStep cfg s dets) acc).1.m_framecount
          (s.m_id_list.getD i0 0) 0 = 0) := by
  induction rows generalizing acc with
  | nil => simp at hmem
  | cons r rs ih =>
    simp only [List.map_cons, List.nodup_cons] at hnd
    simp only [List.foldl_cons]
    rcases List.mem_cons.mp hmem with hi | hi
    · subst hi
      have hnotin : ∀ i ∈ rs, s.m_id_list.getD i 0 ≠ s.m_id_list.getD i0 0 := by
        intro i hi2 hh
        exact hnd.1 (hh ▸ List.mem_map_of_mem _ hi2)
      have hu := fold_matchStep_untouched cfg s dets rs (matchStep cfg s dets acc i0)
        (s.m_id_list.getD i0 0) hnotin
      have hdis : mfindD (rs.foldl (matchStep cfg s dets) (matchStep cfg s dets acc i0)).1.m_disappeared
          (s.m_id_list.getD i0 0) 0 =
          mfindD (matchStep cfg s dets acc i0).1.m_disappeared (s.m_id_list.getD i0 0) 0 := by
        simp only [mfindD, hu.2.1]
      have hfc : mfindD (rs.foldl (matchStep cfg s dets) (matchStep cfg s dets acc i0)).1.m_framecount
          (s.m_id_list.getD i0 0) 0 =
          mfindD (matchStep cfg s dets acc i0).1.m_framecount (s.m_id_list.getD i0 0) 0 := by
        simp only [mfindD, hu.2.2]
      rw [hdis, hfc]
      unfold matchStep
      cases hf : findMatch (dist_matrix s dets i0) (cfg.dist_tol * cfg.dist_tol) acc.2
          (sorted_ids s dets i0) with
      | some j =>
        left
        constructor
        · rfl
        · exact mfindD_mset_self _ _ _ _
      | none =>
        right
        constructor
        · exact mfindD_mset_self _ _ _ _
        · exact mfindD_mset_self _ _ _ _
    · have hne : s.m_id_list.getD i0 0 ≠ s.m_id_list.getD r 0 := by
        intro hh
        exact hnd.1 (hh ▸ List.mem_map_of_mem _ hi)
      have hstep : mfindD (matchStep cfg s dets acc r).1.m_disappeared
            (s.m_id_list.getD i0 0) 0 =
            mfindD acc.1.m_disappeared (s.m_id_list.getD i0 0) 0 ∧
          mfindD (matchStep cfg s dets acc r).1.m_framecount
            (s.m_id_list.getD i0 0) 0 =
            mfindD acc.1.m_framecount (s.m_id_list.getD i0 0) 0 := by
        unfold matchStep
        cases hf : findMatch (dist_matrix s dets r) (cfg.dist_tol * cfg.dist_tol) acc.2
            (sorted_ids s dets r) with
        | some j => exact ⟨rfl, mfindD_mset_ne _ _ _ _ _ hne⟩
        | none => exact ⟨mfindD_mset_ne _ _ _ _ _ hne, mfindD_mset_ne _ _ _ _ _ hne⟩
      have ht := ih (matchStep cfg s dets acc r) hi hnd.2
      rw [hstep.1, hstep.2] at ht
      exact ht

/- ## Lemmas: registration of unclaimed columns, general case, update -/

theorem cond_reg_fold_WF (dets : List Object) (used : List Nat) (cols : List Nat)
    (st : Tracker) (h : WF st) :
    WF (cols.foldl (fun st x => if used.contains x then st
      else register_object st (dets.getD x default)) st) := by
  induction cols generalizing st with
  | nil => exact h
  | cons c cs ih =>
    simp only [List.foldl_cons]
    by_cases hc : used.contains c
    · rw [if_pos hc]
      exact ih st h
    · rw [if_neg hc]
      exact ih _ (WF_register st _ h)

theorem cond_reg_fold_next (dets : List Object) (used : List Nat) (cols : List Nat)
    (st : Tracker) :
    st.m_next_id ≤ (cols.foldl (fun st x => if used.contains x then st
      else register_object st (dets.getD x default)) st).m_next_id := by
  induction cols generalizing st with
  | nil => exact le_refl _
  | cons c cs ih =>
    simp only [List.foldl_cons]
    by_cases hc : used.contains c
    · rw [if_pos hc]
      exact ih st
    · rw [if_neg hc]
      have h1 := ih (register_object st (dets.getD c default))
      have h2 : (register_object st (dets.getD c default)).m_next_id = st.m_next_id + 1 := rfl
      omega

theorem cond_reg_fold_keys (dets : List Object) (used : List Nat) (cols : List Nat)
    (st : Tracker) (k : Nat)
    (h : k ∈ akeys (cols.foldl (fun st x => if used.contains x then st
      else register_object st (dets.getD x default)) st)) :
    k ∈ akeys st ∨ st.m_next_id ≤ k := by
  induction cols generalizing st with
  | nil => exact Or.inl h
  | cons c cs ih =>
    simp only [List.foldl_cons] at h
    by_cases hc : used.contains c
    · rw [if_pos hc] at h
      exact ih st h
    · rw [if_neg hc] at h
      rcases ih _ h with h2 | h2
      · rcases (mem_akeys_register st _ k).mp h2 with h3 | h3
        · omega
        · exact Or.inl h3
      · have h3 : (register_object st (dets.getD c default)).m_next_id = st.m_next_id + 1 := rfl
        omega

theorem cond_reg_fold_preserve (dets : List Object) (used : List Nat) (cols : List Nat)
    (st : Tracker) (k : Nat) (hk : k < st.m_next_id) :
    mfind (cols.foldl (fun st x => if used.contains x then st
        else register_object st (dets.getD x default)) st).m_active_objects k =
      mfind st.m_active_objects k ∧
    mfind (cols.foldl (fun st x => if used.contains x then st
        else register_object st (dets.getD x default)) st).m_disappeared k =
      mfind st.m_disappeared k ∧
    mfind (cols.foldl (fun st x => if used.contains x then st
        else register_object st (dets.getD x default)) st).m_framecount k =
      mfind st.m_framecount k := by
  induction cols generalizing st with
  | nil => exact ⟨rfl, rfl, rfl⟩
  | cons c cs ih =>
    simp only [List.foldl_cons]
    by_cases hc : used.contains c
    · rw [if_pos hc]
      exact ih st hk
    · rw [if_neg hc]
      have hne : k ≠ st.m_next_id := by omega
      have hlt2 : k < (register_object st (dets.getD c default)).m_next_id := by
        have : (register_object st (dets.getD c default)).m_next_id = st.m_next_id + 1 := rfl
        omega
      have ht := ih (register_object st (dets.getD c default)) hlt2
      refine ⟨?_, ?_, ?_⟩
      · rw [ht.1]
        exact mfind_mset_ne _ _ _ _ hne
      · rw [ht.2.1]
        exact mfind_mset_ne _ _ _ _ hne
      · rw [ht.2.2]
        exact mfind_mset_ne _ _ _ _ hne

theorem id_list_length (s : Tracker) (h : WF s) :
    s.m_id_list.length = object_count s := by
  have h1 := h.2.2.2.2.1.length_eq
  simp only [akeys, mkeys, List.length_map] at h1
  exact h1

theorem rows_lt_id_list (s : Tracker) (dets : List Object) (h : WF s) :
    ∀ i ∈ active_obj_ids s dets, i < s.m_id_list.length := by
  intro i hi
  rw [show active_obj_ids s dets = sortLt _ (List.range (object_count s)) from rfl,
    mem_sortLt, List.mem_range] at hi
  rw [id_list_length s h]
  exact hi

theorem WF_general_case (cfg : Config) (s : Tracker) (dets : List Object)
    (h : WF s) : WF (general_case cfg s dets) := by
  have hinv := fold_matchStep_inv cfg s dets (active_obj_ids s dets) (s, []) h rfl
    (rows_lt_id_list s dets h) h
  exact cond_reg_fold_WF dets _ _ _ hinv.1

theorem WF_update_body (cfg : Config) (s : Tracker) (dets : List Object)
    (h : WF s) : WF (update_body cfg s dets) := by
  unfold update_body
  by_cases h1 : dets.length = 0
  · rw [if_pos h1]
    exact WF_age_all s h
  · rw [if_neg h1]
    by_cases h2 : object_count s = 0
    · rw [if_pos h2]
      exact WF_fold_register dets s h
    · rw [if_neg h2]
      exact WF_general_case cfg s dets h

theorem WF_update (cfg : Config) (s : Tracker) (dets : List Object)
    (h : WF s) : WF (update cfg s dets) :=
  WF_cleanup cfg _ (WF_update_body cfg s dets h)

theorem mem_akeys_cleanup_sub (cfg : Config) (t : Tracker) (k : Nat)
    (h : k ∈ akeys (cleanup_dissapeared cfg t)) : k ∈ akeys t := by
  rw [show cleanup_dissapeared cfg t = List.foldl
      (fun st p => if cfg.max_dissapeared_frms < p.2 then deregister_object st p.1 else st)
      t t.m_disappeared from rfl, cleanup_fold_akeys] at h
  exact (List.mem_filter.mp h).1

theorem cleanup_next (cfg : Config) (t : Tracker) :
    (cleanup_dissapeared cfg t).m_next_id = t.m_next_id := by
  show (List.foldl _ t t.m_disappeared).m_next_id = t.m_next_id
  have hgen : ∀ (l : List (Nat × Nat)) (st : Tracker),
      (List.foldl (fun st p =>
        if cfg.max_dissapeared_frms < p.2 then deregister_object st p.1 else st)
        st l).m_next_id = st.m_next_id := by
    intro l
    induction l with
    | nil => intro st; rfl
    | cons p ps ih =>
      intro st
      simp only [List.foldl_cons]
      by_cases hc : cfg.max_dissapeared_frms < p.2
      · rw [if_pos hc]
        exact ih _
      · rw [if_neg hc]
        exact ih _
  exact hgen _ t

theorem akeys_update_sub (cfg : Config) (s : Tracker) (dets : List Object)
    (h : WF s) (k : Nat) (hk : k ∈ akeys (update cfg s dets)) :
    k ∈ akeys s ∨ s.m_next_id ≤ k := by
  have hb := mem_akeys_cleanup_sub cfg _ k hk
  unfold update_body at hb
  by_cases h1 : dets.length = 0
  · rw [if_pos h1] at hb
    exact Or.inl hb
  · rw [if_neg h1] at hb
    by_cases h2 : object_count s = 0
    · rw [if_pos h2] at hb
      exact mem_akeys_fold_register dets s k hb
    · rw [if_neg h2] at hb
      have hinv := fold_matchStep_inv cfg s dets (active_obj_ids s dets) (s, []) h rfl
        (rows_lt_id_list s dets h) h
      rcases cond_reg_fold_keys dets _ _ _ k hb with h3 | h3
      · rw [hinv.2.1] at h3
        exact Or.inl h3
      · rw [hinv.2.2.2.1] at h3
        exact Or.inr h3

theorem next_update_mono (cfg : Config) (s : Tracker) (dets : List Object)
    (h : WF s) : s.m_next_id ≤ (update cfg s dets).m_next_id := by
  rw [show update cfg s dets = cleanup_dissapeared cfg (update_body cfg s dets) from rfl,
    cleanup_next]
  unfold update_body
  by_cases h1 : dets.length = 0
  · rw [if_pos h1]
    exact le_refl _
  · rw [if_neg h1]
    by_cases h2 : object_count s = 0
    · rw [if_pos h2]
      exact next_fold_register dets s
    · rw [if_neg h2]
      have hinv := fold_matchStep_inv cfg s dets (active_obj_ids s dets) (s, []) h rfl
        (rows_lt_id_list s dets h) h
      have := cond_reg_fold_next dets
        ((active_obj_ids s dets).foldl (matchStep cfg s dets) (s, [])).2
        (sorted_ids s dets 0)
        ((active_obj_ids s dets).foldl (matchStep cfg s dets) (s, [])).1
      rw [hinv.2.2.2.1] at this
      exact this

/- ## Lemmas: topValid basics and reachability -/

theorem topValid_fields (cfg : Config) (s : Tracker) :
    (topValid cfg s).2.m_active_objects = s.m_active_objects ∧
    (topValid cfg s).2.m_disappeared = s.m_disappeared ∧
    (topValid cfg s).2.m_framecount = s.m_framecount ∧
    (topValid cfg s).2.m_id_list = s.m_id_list ∧
    (topValid cfg s).2.m_next_id = s.m_next_id := by
  unfold topValid
  by_cases h : object_count s = 0
  · rw [if_pos h]
    exact ⟨rfl, rfl, rfl, rfl, rfl⟩
  · rw [if_neg h]
    cases findValid cfg s <;> exact ⟨rfl, rfl, rfl, rfl, rfl⟩

theorem findValid_mem (cfg : Config) (s : Tracker) (k : Nat)
    (h : findValid cfg s = some k) : k ∈ akeys s :=
  List.mem_of_find?_eq_some h

theorem WF_topValid (cfg : Config) (s : Tracker) (h : WF s) : WF (topValid cfg s).2 := by
  unfold topValid
  by_cases h0 : object_count s = 0
  · rw [if_pos h0]
    exact h
  · rw [if_neg h0]
    cases hf : findValid cfg s with
    | none => exact h
    | some k =>
      obtain ⟨hsort, hu, hd, hf2, hp, hb⟩ := h
      have hk : k ∈ mkeys s.m_uprooted := by
        rw [hu]
        exact findValid_mem cfg s k hf
      have hkeys : mkeys (mset s.m_uprooted k true) = mkeys s.m_uprooted :=
        mkeys_mset_mem _ _ _ (by rw [hu]; exact hsort) hk
      refine ⟨hsort, ?_, hd, hf2, hp, hb⟩
      show mkeys (mset s.m_uprooted k true) = akeys s
      rw [hkeys, hu]

theorem WF_initTracker : WF initTracker := by
  refine ⟨?_, rfl, rfl, rfl, ?_, ?_⟩ <;> simp [initTracker, akeys, mkeys]

theorem WF_reach (cfg : Config) {s t : Tracker} (h : Reach cfg s t) (hs : WF s) :
    WF t := by
  induction h with
  | refl => exact hs
  | tail hr hstep ih =>
    cases hstep with
    | upd dets => exact WF_update cfg _ dets ih
    | claim => exact WF_topValid cfg _ ih

theorem WF_reachable (cfg : Config) (s : Tracker) (h : Reachable cfg s) : WF s :=
  WF_reach cfg h WF_initTracker

/- ## Lemmas: per-identity effect of one update -/

theorem cleanup_survivor_not_removed (cfg : Config) (t : Tracker) (k : Nat)
    (hk : k ∈ akeys (cleanup_dissapeared cfg t)) :
    removedBy cfg t.m_disappeared k = false := by
  rw [show cleanup_dissapeared cfg t = List.foldl
      (fun st p => if cfg.max_dissapeared_frms < p.2 then deregister_object st p.1 else st)
      t t.m_disappeared from rfl, cleanup_fold_akeys, List.mem_filter] at hk
  have := hk.2
  cases hrb : removedBy cfg t.m_disappeared k with
  | false => rfl
  | true =>
    rw [hrb] at this
    simp at this

theorem cleanup_preserve_values (cfg : Config) (t : Tracker) (k : Nat)
    (hk : k ∈ akeys (cleanup_dissapeared cfg t)) :
    mfind (cleanup_dissapeared cfg t).m_active_objects k = mfind t.m_active_objects k ∧
    mfind (cleanup_dissapeared cfg t).m_uprooted k = mfind t.m_uprooted k ∧
    mfind (cleanup_dissapeared cfg t).m_disappeared k = mfind t.m_disappeared k ∧
    mfind (cleanup_dissapeared cfg t).m_framecount k = mfind t.m_framecount k := by
  have h := cleanup_fold_preserve cfg t.m_disappeared t k
    (cleanup_survivor_not_removed cfg t k hk)
  exact ⟨h.1, h.2.1, h.2.2.1, h.2.2.2.1⟩

theorem count_zero_akeys (s : Tracker) (h : object_count s = 0) : akeys s = [] := by
  rw [akeys, mkeys]
  rw [object_count, List.length_eq_zero] at h
  rw [h]
  rfl

/-- On every update, a surviving previously-tracked identity is either missed
(`disappearedCount` incremented, `matchStreak` reset) or matched
(`matchStreak` incremented, `disappearedCount` left unchanged). -/
theorem update_entry_shape (cfg : Config) (s : Tracker) (dets : List Object)
    (h : WF s) (id : Nat) (hid : id ∈ akeys s)
    (hid2 : id ∈ akeys (update cfg s dets)) :
    (mfindD (update cfg s dets).m_disappeared id 0 = mfindD s.m_disappeared id 0 + 1 ∧
     mfindD (update cfg s dets).m_framecount id 0 = 0) ∨
    (mfindD (update cfg s dets).m_disappeared id 0 = mfindD s.m_disappeared id 0 ∧
     mfindD (update cfg s dets).m_framecount id 0 = mfindD s.m_framecount id 0 + 1) := by
  obtain ⟨hsort, hu, hd, hf, hp, hb⟩ := h
  have hW : WF s := ⟨hsort, hu, hd, hf, hp, hb⟩
  -- cleanup preserves the surviving entry
  have hpres := cleanup_preserve_values cfg (update_body cfg s dets) id hid2
  have hdis : mfindD (update cfg s dets).m_disappeared id 0 =
      mfindD (update_body cfg s dets).m_disappeared id 0 := by
    simp only [mfindD]
    rw [show (update cfg s dets).m_disappeared =
      (cleanup_dissapeared cfg (update_body cfg s dets)).m_disappeared from rfl, hpres.2.2.1]
  have hfc : mfindD (update cfg s dets).m_framecount id 0 =
      mfindD (update_body cfg s dets).m_framecount id 0 := by
    simp only [mfindD]
    rw [show (update cfg s dets).m_framecount =
      (cleanup_dissapeared cfg (update_body cfg s dets)).m_framecount from rfl, hpres.2.2.2]
  rw [hdis, hfc]
  unfold update_body
  by_cases h1 : dets.length = 0
  · rw [if_pos h1]
    left
    have hdd : (mkeys s.m_disappeared).Nodup := by
      rw [hd]
      exact List.Pairwise.imp Nat.ne_of_lt hsort
    have hidd : id ∈ mkeys s.m_disappeared := by
      rw [hd]
      exact hid
    rcases mfind_isSome s.m_disappeared id hidd with ⟨v, hv⟩
    constructor
    · show mfindD (s.m_disappeared.map (fun p => (p.1, p.2 + 1))) id 0 =
        mfindD s.m_disappeared id 0 + 1
      simp only [mfindD, mfind_map_incr, hv]
      rfl
    · show mfindD (List.foldl (fun fc p => mset fc p.1 0) s.m_framecount s.m_disappeared)
        id 0 = 0
      simp only [mfindD]
      rw [(mfind_fold_mset0 s.m_disappeared s.m_framecount id hdd).1 hidd]
      rfl
  · rw [if_neg h1]
    by_cases h2 : object_count s = 0
    · exfalso
      rw [count_zero_akeys s h2] at hid
      simp at hid
    · rw [if_neg h2]
      -- the general case: locate id's row
      have hidl : id ∈ s.m_id_list := hp.mem_iff.mpr hid
      rcases List.mem_iff_getElem.mp hidl with ⟨i0, hi0, hgi⟩
      have hgd : s.m_id_list.getD i0 0 = id := by
        rw [List.getD_eq_getElem s.m_id_list 0 hi0, hgi]
      have hi0mem : i0 ∈ active_obj_ids s dets := by
        rw [show active_obj_ids s dets = sortLt _ (List.range (object_count s)) from rfl,
          mem_sortLt, List.mem_range]
        rw [id_list_length s hW] at hi0
        exact hi0
      have hndrows : ((active_obj_ids s dets).map (fun i => s.m_id_list.getD i 0)).Nodup := by
        refine nodup_map_getD s.m_id_list _ ?_ ?_ (rows_lt_id_list s dets hW)
        · exact hp.symm.nodup (akeys_nodup hW)
        · exact (perm_sortLt _ (List.range (object_count s))).symm.nodup (List.nodup_range _)
      have hshape := fold_matchStep_shape cfg s dets (active_obj_ids s dets) (s, []) i0
        hi0mem hndrows
      rw [hgd] at hshape
      -- registration of new columns does not touch an old id
      have hinv := fold_matchStep_inv cfg s dets (active_obj_ids s dets) (s, []) hW rfl
        (rows_lt_id_list s dets hW) hW
      have hidlt : id < ((active_obj_ids s dets).foldl (matchStep cfg s dets) (s, [])).1.m_next_id := by
        rw [hinv.2.2.2.1]
        exact hb id hid
      have hreg := cond_reg_fold_preserve dets
        ((active_obj_ids s dets).foldl (matchStep cfg s dets) (s, [])).2
        (sorted_ids s dets 0)
        ((active_obj_ids s dets).foldl (matchStep cfg s dets) (s, [])).1 id hidlt
      have hrd : mfindD (general_case cfg s dets).m_disappeared id 0 =
          mfindD ((active_obj_ids s dets).foldl (matchStep cfg s dets) (s, [])).1.m_disappeared id 0 := by
        simp only [mfindD]
        rw [show mfind (general_case cfg s dets).m_disappeared id =
          mfind ((active_obj_ids s dets).foldl (matchStep cfg s dets) (s, [])).1.m_disappeared id
          from hreg.2.1]
      have hrf : mfindD (general_case cfg s dets).m_framecount id 0 =
          mfindD ((active_obj_ids s dets).foldl (matchStep cfg s dets) (s, [])).1.m_framecount id 0 := by
        simp only [mfindD]
        rw [show mfind (general_case cfg s dets).m_framecount id =
          mfind ((active_obj_ids s dets).foldl (matchStep cfg s dets) (s, [])).1.m_framecount id
          from hreg.2.2]
      rw [hrd, hrf]
      rcases hshape with hs1 | hs1
      · right
        exact hs1
      · left
        exact hs1

/-- On every update, every surviving identity's disappeared count is at most
the configured tolerance. -/
theorem update_disappeared_le (cfg : Config) (s : Tracker) (dets : List Object)
    (h : WF s) (k : Nat) (hk : k ∈ akeys (update cfg s dets)) :
    mfindD (update cfg s dets).m_disappeared k 0 ≤ cfg.max_dissapeared_frms := by
  have hWb := WF_update_body cfg s dets h
  have hmem := (mem_akeys_cleanup cfg (update_body cfg s dets) hWb k).mp hk
  have hpres := cleanup_preserve_values cfg (update_body cfg s dets) k hk
  have : mfindD (update cfg s dets).m_disappeared k 0 =
      mfindD (update_body cfg s dets).m_disappeared k 0 := by
    simp only [mfindD]
    rw [show (update cfg s dets).m_disappeared =
      (cleanup_dissapeared cfg (update_body cfg s dets)).m_disappeared from rfl, hpres.2.2.1]
  rw [this]
  exact hmem.2

/- ## Lemmas: pure reads (active_objects, top) -/

theorem collectObjs_of_mem (ks : List Nat) (m : List (Nat × Object))
    (h : ∀ k ∈ ks, k ∈ mkeys m) :
    collectObjs ks m = (ks.map (fun k => mfindD m k default), m) := by
  induction ks with
  | nil => rfl
  | cons k t ih =>
    have h1 := mget_mem m k default (h k (by simp))
    have h2 := ih (fun k2 hk2 => h k2 (by simp [hk2]))
    simp only [collectObjs, h1, h2]
    simp

theorem active_objects_pure (s : Tracker) (h : WF s) :
    active_objects s = (s.m_id_list.map (lookupObj s), s) := by
  have hmem : ∀ k ∈ s.m_id_list, k ∈ mkeys s.m_active_objects := fun k hk =>
    h.2.2.2.2.1.mem_iff.mp hk
  unfold active_objects
  rw [collectObjs_of_mem _ _ hmem]
  rfl

theorem id_list_ne_nil (s : Tracker) (h : WF s) (h0 : object_count s ≠ 0) :
    s.m_id_list ≠ [] := by
  intro hl
  apply h0
  have := id_list_length s h
  rw [hl] at this
  simpa using this.symm

theorem top_pure (s : Tracker) (h : WF s) :
    top s = (if object_count s = 0 then none
      else some (lookupObj s (s.m_id_list.headD 0)), s) := by
  unfold top
  by_cases h0 : object_count s = 0
  · rw [if_pos h0, if_pos h0]
  · rw [if_neg h0, if_neg h0]
    have hne := id_list_ne_nil s h h0
    have hhead : s.m_id_list.headD 0 ∈ s.m_id_list := by
      cases hl : s.m_id_list with
      | nil => exact absurd hl hne
      | cons a t => simp [hl]
    have hmem : s.m_id_list.headD 0 ∈ mkeys s.m_active_objects :=
      h.2.2.2.2.1.mem_iff.mp hhead
    rw [mget_mem _ _ _ hmem]
    rfl

/- ## Lemmas: findValid, eligibility and claiming -/

theorem findValid_eq_head_elig (cfg : Config) (s : Tracker) :
    findValid cfg s = (elig cfg s).head? :=
  find?_eq_head_filter _ _

theorem find?_sorted_min (p : Nat → Bool) (l : List Nat)
    (hs : List.Pairwise (· < ·) l) (k : Nat) (h : l.find? p = some k) :
    p k = true ∧ ∀ x ∈ l, p x = true → k ≤ x := by
  induction l with
  | nil => simp at h
  | cons a t ih =>
    rw [List.pairwise_cons] at hs
    cases hpa : p a with
    | true =>
      rw [List.find?_cons_of_pos t hpa] at h
      have hka : k = a := by injection h; omega
      subst hka
      refine ⟨hpa, ?_⟩
      intro x hx _
      rcases List.mem_cons.mp hx with hx | hx
      · omega
      · exact le_of_lt (hs.1 x hx)
    | false =>
      rw [List.find?_cons_of_neg t (by simp [hpa])] at h
      have ht := ih hs.2 h
      refine ⟨ht.1, ?_⟩
      intro x hx hpx
      rcases List.mem_cons.mp hx with hx | hx
      · subst hx
        rw [hpa] at hpx
        simp at hpx
      · exact ht.2 x hx hpx

theorem filter_flip_first (p q : Nat → Bool) (l : List Nat) (k : Nat)
    (hnd : l.Nodup) (hq : ∀ x, x ≠ k → q x = p x) (hqk : q k = false)
    (hhead : (l.filter p).head? = some k) :
    l.filter q = (l.filter p).tail := by
  induction l with
  | nil => simp at hhead
  | cons a t ih =>
    rw [List.nodup_cons] at hnd
    cases hpa : p a with
    | true =>
      rw [List.filter_cons_of_pos hpa, List.head?_cons] at hhead
      have hak : a = k := by simpa using hhead
      subst hak
      have hqa : ¬ q a = true := by simp [hqk]
      rw [List.filter_cons_of_neg hqa, List.filter_cons_of_pos hpa]
      simp only [List.tail_cons]
      exact List.filter_congr (fun x hx => hq x (fun hh => hnd.1 (hh ▸ hx)))
    | false =>
      have hpa2 : ¬ p a = true := by simp [hpa]
      rw [List.filter_cons_of_neg hpa2] at hhead
      have hak : a ≠ k := by
        intro hh
        subst hh
        have hmem2 : a ∈ List.filter p t := List.mem_of_mem_head? hhead
        exact hnd.1 (List.mem_of_mem_filter hmem2)
      have hqa : ¬ q a = true := by rw [hq a hak]; simp [hpa]
      rw [List.filter_cons_of_neg hqa, List.filter_cons_of_neg hpa2]
      exact ih hnd.2 hhead

theorem count_ne_zero_of_akeys_mem (s : Tracker) (k : Nat) (hk : k ∈ akeys s) :
    object_count s ≠ 0 := by
  intro h0
  rw [count_zero_akeys s h0] at hk
  simp at hk

theorem topValid_claim_state (cfg : Config) (s : Tracker) (k : Nat)
    (hf : findValid cfg s = some k) :
    (topValid cfg s).2 = { s with m_uprooted := mset s.m_uprooted k true } ∧
    (topValid cfg s).1 = some (mfindD s.m_active_objects k default) := by
  have h0 : object_count s ≠ 0 :=
    count_ne_zero_of_akeys_mem s k (findValid_mem cfg s k hf)
  unfold topValid
  rw [if_neg h0, hf]
  exact ⟨rfl, rfl⟩

theorem elig_after_claim (cfg : Config) (s : Tracker) (k : Nat) (h : WF s)
    (hf : findValid cfg s = some k) :
    elig cfg (topValid cfg s).2 = (elig cfg s).tail := by
  rw [(topValid_claim_state cfg s k hf).1]
  show List.filter _ (akeys s) = (elig cfg s).tail
  refine filter_flip_first _ _ (akeys s) k (akeys_nodup h) ?_ ?_ ?_
  · intro x hx
    simp only [mfindD_mset_ne s.m_uprooted k x true false hx]
  · simp [mfindD_mset_self]
  · show (elig cfg s).head? = some k
    rw [← findValid_eq_head_elig]
    exact hf

theorem elig_length_claim (cfg : Config) (s : Tracker) (k : Nat) (h : WF s)
    (hf : findValid cfg s = some k) (n : Nat) (hn : (elig cfg s).length = n + 1) :
    (elig cfg (topValid cfg s).2).length = n := by
  rw [elig_after_claim cfg s k h hf, List.length_tail, hn]
  rfl

theorem runClaims_spec (cfg : Config) (n : Nat) (s : Tracker) (h : WF s)
    (hn : (elig cfg s).length = n) :
    (runClaims cfg n s).1 = elig cfg s ∧
    findValid cfg (runClaims cfg n s).2 = none := by
  induction n generalizing s with
  | zero =>
    have he : elig cfg s = [] := List.length_eq_zero.mp hn
    refine ⟨by simp [runClaims, he], ?_⟩
    show findValid cfg s = none
    rw [findValid_eq_head_elig, he]
    rfl
  | succ n ih =>
    obtain ⟨k, hk⟩ : ∃ k, findValid cfg s = some k := by
      rw [findValid_eq_head_elig]
      cases hel : elig cfg s with
      | nil => rw [hel] at hn; simp at hn
      | cons a t => exact ⟨a, by simp⟩
    have hW2 := WF_topValid cfg s h
    have hlen := elig_length_claim cfg s k h hk n hn
    have ht := ih (topValid cfg s).2 hW2 hlen
    simp only [runClaims, hk]
    constructor
    · show k :: (runClaims cfg n (topValid cfg s).2).1 = elig cfg s
      rw [ht.1, elig_after_claim cfg s k h hk]
      have hhead : (elig cfg s).head? = some k := by
        rw [← findValid_eq_head_elig]
        exact hk
      cases hel : elig cfg s with
      | nil => rw [hel] at hhead; simp at hhead
      | cons a t =>
        rw [hel] at hhead
        simp only [List.head?_cons] at hhead
        injection hhead with hh
        rw [hh]
        rfl
    · exact ht.2

/- ## Lemmas: the ranked id list -/

theorem insertRanked_sorted (m : List (Nat × Object)) (obj : Object) (newId : Nat)
    (l : List Nat) (f : Nat → Object)
    (hf : ∀ k ∈ l, f k = mfindD m k default) (hfnew : f newId = obj)
    (hsorted : rankedDesc (l.map f)) :
    rankedDesc ((insertRanked m obj newId l).map f) := by
  induction l with
  | nil =>
    simp [insertRanked, rankedDesc]
  | cons k ks ih =>
    simp only [List.map_cons, rankedDesc, List.pairwise_cons] at hsorted
    simp only [insertRanked]
    by_cases hg : Object.gtRank (mfindD m k default) obj = true
    · rw [if_pos hg]
      simp only [List.map_cons, rankedDesc, List.pairwise_cons]
      constructor
      · intro y hy
        have hy2 : y ∈ List.map f (newId :: ks) :=
          ((insertRanked_perm m obj newId ks).map f).mem_iff.mp hy
        simp only [List.map_cons, List.mem_cons] at hy2
        rcases hy2 with hy2 | hy2
        · subst hy2
          rw [hfnew, hf k (by simp)]
          simp only [Object.gtRank, decide_eq_true_eq] at hg
          simp only [Object.gtRank, decide_eq_false_iff_not]
          exact lt_asymm hg
        · exact hsorted.1 y hy2
      · exact ih (fun x hx => hf x (by simp [hx])) hsorted.2
    · rw [if_neg hg]
      simp only [List.map_cons, rankedDesc, List.pairwise_cons]
      rw [← hf k (by simp)] at hg
      simp only [Object.gtRank, decide_eq_true_eq] at hg
      refine ⟨?_, ?_, hsorted.2⟩
      · intro y hy
        rw [hfnew]
        rcases List.mem_cons.mp hy with hy | hy
        · subst hy
          simp only [Object.gtRank, decide_eq_false_iff_not]
          exact hg
        · have h1 := hsorted.1 y hy
          simp only [Object.gtRank, decide_eq_false_iff_not] at h1 ⊢
          exact not_lt.mpr (le_trans (not_lt.mp h1) (not_lt.mp hg))
      · exact hsorted.1

theorem rankedState_register (s : Tracker) (obj : Object) (h : WF s)
    (hr : rankedState s) : rankedState (register_object s obj) := by
  unfold rankedState at hr ⊢
  show rankedDesc ((insertRanked s.m_active_objects obj s.m_next_id s.m_id_list).map
    (lookupObj (register_object s obj)))
  have hne : ∀ k ∈ s.m_id_list, k ≠ s.m_next_id := by
    intro k hk
    have hkm : k ∈ akeys s := h.2.2.2.2.1.mem_iff.mp hk
    have := h.2.2.2.2.2 k hkm
    omega
  refine insertRanked_sorted _ _ _ _ _ ?_ ?_ ?_
  · intro k hk
    show mfindD (mset s.m_active_objects s.m_next_id obj) k default =
      mfindD s.m_active_objects k default
    exact mfindD_mset_ne _ _ _ _ _ (hne k hk)
  · exact mfindD_mset_self _ _ _ _
  · have hmap : s.m_id_list.map (lookupObj (register_object s obj)) =
        s.m_id_list.map (lookupObj s) := by
      refine List.map_congr_left ?_
      intro k hk
      show mfindD (mset s.m_active_objects s.m_next_id obj) k default =
        mfindD s.m_active_objects k default
      exact mfindD_mset_ne _ _ _ _ _ (hne k hk)
    rw [hmap]
    exact hr

theorem rankedState_deregister (s : Tracker) (id : Nat) (h : WF s)
    (hr : rankedState s) : rankedState (deregister_object s id) := by
  unfold rankedState at hr ⊢
  have hnd : s.m_id_list.Nodup := h.2.2.2.2.1.symm.nodup (akeys_nodup h)
  have hmap : (s.m_id_list.erase id).map (lookupObj (deregister_object s id)) =
      (s.m_id_list.erase id).map (lookupObj s) := by
    refine List.map_congr_left ?_
    intro k hk
    have hkne : k ≠ id := ((List.Nodup.mem_erase_iff hnd).mp hk).1
    show mfindD (merase s.m_active_objects id) k default =
      mfindD s.m_active_objects k default
    simp only [mfindD, mfind_merase_ne _ _ _ hkne]
  show rankedDesc ((s.m_id_list.erase id).map (lookupObj (deregister_object s id)))
  rw [hmap]
  exact List.Pairwise.sublist ((List.erase_sublist id s.m_id_list).map _) hr

theorem rankedState_cleanup (cfg : Config) (t : Tracker) (h : WF t)
    (hr : rankedState t) : rankedState (cleanup_dissapeared cfg t) := by
  show rankedState (List.foldl _ t t.m_disappeared)
  have hgen : ∀ (l : List (Nat × Nat)) (st : Tracker), WF st → rankedState st →
      rankedState (List.foldl (fun st p => if cfg.max_dissapeared_frms < p.2
        then deregister_object st p.1 else st) st l) := by
    intro l
    induction l with
    | nil => intro st _ hr2; exact hr2
    | cons p ps ih =>
      intro st hW hr2
      simp only [List.foldl_cons]
      by_cases hc : cfg.max_dissapeared_frms < p.2
      · rw [if_pos hc]
        exact ih _ (WF_deregister _ _ hW) (rankedState_deregister _ _ hW hr2)
      · rw [if_neg hc]
        exact ih _ hW hr2
  exact hgen _ t h hr

theorem rankedState_age_all (s : Tracker) (hr : rankedState s) :
    rankedState (age_all s) := hr

theorem rankedState_fold_register (dets : List Object) (s : Tracker) (h : WF s)
    (hr : rankedState s) : rankedState (List.foldl register_object s dets) := by
  induction dets generalizing s with
  | nil => exact hr
  | cons d ds ih => exact ih _ (WF_register s d h) (rankedState_register s d h hr)

theorem rankedState_topValid (cfg : Config) (s : Tracker) (hr : rankedState s) :
    rankedState (topValid cfg s).2 := by
  have hfields := topValid_fields cfg s
  unfold rankedState lookupObj at hr ⊢
  rw [hfields.1, hfields.2.2.2.1]
  exact hr

theorem rankedState_update_simple (cfg : Config) (s : Tracker) (dets : List Object)
    (h : WF s) (hc : dets = [] ∨ object_count s = 0) (hr : rankedState s) :
    rankedState (update cfg s dets) := by
  have hWb := WF_update_body cfg s dets h
  refine rankedState_cleanup cfg _ hWb ?_
  unfold update_body
  by_cases h1 : dets.length = 0
  · rw [if_pos h1]
    exact rankedState_age_all s hr
  · rw [if_neg h1]
    have hc2 : object_count s = 0 := by
      rcases hc with hc | hc
      · exact absurd (by rw [hc]; rfl) h1
      · exact hc
    rw [if_pos hc2]
    exact rankedState_fold_register dets s h hr

theorem reachSimple_ranked (cfg : Config) (s : Tracker) (h : ReachSimple cfg s) :
    rankedState s ∧ WF s := by
  induction h with
  | init =>
    constructor
    · show rankedDesc (List.map _ [])
      simp [rankedDesc]
    · exact WF_initTracker
  | upd dets hprev hcond ih =>
    exact ⟨rankedState_update_simple cfg _ dets ih.2 hcond ih.1,
      WF_update cfg _ dets ih.2⟩
  | claim hprev ih =>
    exact ⟨rankedState_topValid cfg _ ih.1, WF_topValid cfg _ ih.2⟩

/- ## Lemmas: the tolerance check of the matching loop -/

theorem findMatch_some_spec (d : Nat → Distance) (tol2 : Distance)
    (used cols : List Nat) (j : Nat) (h : findMatch d tol2 used cols = some j) :
    j ∈ cols ∧ used.contains j = false ∧ d j < tol2 := by
  have h1 := List.find?_some h
  have h2 := List.mem_of_find?_eq_some h
  simp only [Bool.and_eq_true, Bool.not_eq_true', decide_eq_true_eq] at h1
  exact ⟨h2, h1.1, h1.2⟩

theorem findMatch_none_of_far (d : Nat → Distance) (tol2 : Distance)
    (used cols : List Nat)
    (h : ∀ j ∈ cols, used.contains j = false → tol2 ≤ d j) :
    findMatch d tol2 used cols = none := by
  rw [findMatch, List.find?_eq_none]
  intro x hx
  simp only [Bool.and_eq_true, Bool.not_eq_true', decide_eq_true_eq]
  intro hcon
  exact absurd hcon.2 (not_lt.mpr (h x hx hcon.1))

theorem matchStep_miss (cfg : Config) (s : Tracker) (dets : List Object)
    (acc : Tracker × List Nat) (i : Nat)
    (h : findMatch (dist_matrix s dets i) (cfg.dist_tol * cfg.dist_tol) acc.2
      (sorted_ids s dets i) = none) :
    matchStep cfg s dets acc i = (applyMiss acc.1 (s.m_id_list.getD i 0), acc.2) := by
  unfold matchStep
  rw [h]

theorem matchStep_match (cfg : Config) (s : Tracker) (dets : List Object)
    (acc : Tracker × List Nat) (i j : Nat)
    (h : findMatch (dist_matrix s dets i) (cfg.dist_tol * cfg.dist_tol) acc.2
      (sorted_ids s dets i) = some j) :
    matchStep cfg s dets acc i =
      (applyMatch acc.1 (s.m_id_list.getD i 0) (dets.getD j default), j :: acc.2) := by
  unfold matchStep
  rw [h]

/- ## Lemmas: removed ids never reappear -/

theorem akeys_topValid (cfg : Config) (s : Tracker) :
    akeys (topValid cfg s).2 = akeys s := by
  show mkeys (topValid cfg s).2.m_active_objects = mkeys s.m_active_objects
  rw [(topValid_fields cfg s).1]

theorem no_reappear (cfg : Config) {s t : Tracker} (h : Reach cfg s t) (hW : WF s)
    (k : Nat) (hk : k ∉ akeys s) (hlt : k < s.m_next_id) :
    k ∉ akeys t ∧ k < t.m_next_id ∧ WF t := by
  induction h with
  | refl => exact ⟨hk, hlt, hW⟩
  | tail hr hstep ih =>
    obtain ⟨ih1, ih2, ih3⟩ := ih
    cases hstep with
    | upd dets =>
      refine ⟨?_, ?_, WF_update cfg _ dets ih3⟩
      · intro hmem
        rcases akeys_update_sub cfg _ dets ih3 k hmem with hh | hh
        · exact ih1 hh
        · omega
      · have := next_update_mono cfg _ dets ih3
        omega
    | claim =>
      refine ⟨?_, ?_, WF_topValid cfg _ ih3⟩
      · rw [akeys_topValid]
        exact ih1
      · rw [(topValid_fields cfg _).2.2.2.2]
        exact ih2

theorem topValid_none (cfg : Config) (s : Tracker) (h : findValid cfg s = none) :
    (topValid cfg s).1 = none := by
  unfold topValid
  by_cases h0 : object_count s = 0
  · rw [if_pos h0]
  · rw [if_neg h0, h]

/- ## Claim theorems -/

/-- C1, counterexample: after an update in which the matched top identity's
size was refreshed downward (from 5 to 1), `activeObjects()` is no longer
sorted descending by the ranking relation — `update` never re-sorts
`m_id_list` after refreshing a matched identity's position/size. -/
theorem c1_counterexample : ¬ rankedDesc (active_objects exSwap).1 := by decide

/-- C1 (amended): `activeObjects()` is sorted descending by the ranking
relation in every state reachable by updates that never enter the general
matching case (empty detection list or empty registry) plus `topValid` calls;
registration maintains the order, but a matching update that refreshes a
tracked identity's size can break it (see the counterexample). -/
theorem c1_amended_sorted (cfg : Config) (s : Tracker) (h : ReachSimple cfg s) :
    rankedDesc (active_objects s).1 := by
  obtain ⟨hr, hW⟩ := reachSimple_ranked cfg s h
  rw [active_objects_pure s hW]
  exact hr

/-- C1 witness: the amended theorem applied to the two-registration state. -/
theorem c1_witness : rankedDesc (active_objects exTwo).1 :=
  c1_amended_sorted cfgEx exTwo
    (ReachSimple.upd [objA, objB] ReachSimple.init (Or.inr rfl))

/-- C2, counterexample: the identity registered on frame 1, missed on frame 2
(disappearedCount 1) and matched again on frame 3 (framecount back to 1) still
has disappearedCount 1 after the successful match — the code never resets
`m_disappeared` on a match, contradicting "a successful match brings
disappearedCount back to 0". -/
theorem c2_counterexample :
    mfindD exMatch2.m_framecount 1 0 = 1 ∧ mfindD exMatch2.m_disappeared 1 0 = 1 := by
  decide

/-- C2 (amended): on every update call, a previously tracked identity that
survives the call either misses (disappearedCount incremented by 1,
matchStreak reset to 0) or matches (matchStreak incremented by 1,
disappearedCount left UNCHANGED — it is 0 only until the first miss and is
never reset by a match). -/
theorem c2_amended_counts (cfg : Config) (s : Tracker) (dets : List Object)
    (h : WF s) (id : Nat) (hid : id ∈ akeys s)
    (hid2 : id ∈ akeys (update cfg s dets)) :
    (mfindD (update cfg s dets).m_disappeared id 0 = mfindD s.m_disappeared id 0 + 1 ∧
     mfindD (update cfg s dets).m_framecount id 0 = 0) ∨
    (mfindD (update cfg s dets).m_disappeared id 0 = mfindD s.m_disappeared id 0 ∧
     mfindD (update cfg s dets).m_framecount id 0 = mfindD s.m_framecount id 0 + 1) :=
  update_entry_shape cfg s dets h id hid hid2

/-- C2 witness: the amended theorem applied to the miss-then-match state. -/
theorem c2_witness :
    (mfindD (update cfgEx exMiss [objC]).m_disappeared 1 0 =
        mfindD exMiss.m_disappeared 1 0 + 1 ∧
     mfindD (update cfgEx exMiss [objC]).m_framecount 1 0 = 0) ∨
    (mfindD (update cfgEx exMiss [objC]).m_disappeared 1 0 =
        mfindD exMiss.m_disappeared 1 0 ∧
     mfindD (update cfgEx exMiss [objC]).m_framecount 1 0 =
        mfindD exMiss.m_framecount 1 0 + 1) :=
  c2_amended_counts cfgEx exMiss [objC] (by decide) 1 (by decide) (by decide)

/-- C3: in the matching loop, a row is matched to a column only when the
column is unclaimed and its (squared) distance is strictly below the (squared)
tolerance; and when every unclaimed column of the row is at distance at least
the tolerance, the row is treated as a miss. -/
theorem c3_strict_tolerance (cfg : Config) (s : Tracker) (dets : List Object)
    (acc : Tracker × List Nat) (i : Nat) :
    (∀ j, findMatch (dist_matrix s dets i) (cfg.dist_tol * cfg.dist_tol) acc.2
        (sorted_ids s dets i) = some j →
      j ∈ sorted_ids s dets i ∧ acc.2.contains j = false ∧
        dist_matrix s dets i j < cfg.dist_tol * cfg.dist_tol) ∧
    ((∀ j ∈ sorted_ids s dets i, acc.2.contains j = false →
        cfg.dist_tol * cfg.dist_tol ≤ dist_matrix s dets i j) →
      matchStep cfg s dets acc i = (applyMiss acc.1 (s.m_id_list.getD i 0), acc.2)) := by
  constructor
  · intro j hj
    exact findMatch_some_spec _ _ _ _ j hj
  · intro hfar
    exact matchStep_miss cfg s dets acc i (findMatch_none_of_far _ _ _ _ hfar)

/-- C3 witness: a concrete in-tolerance match and a concrete all-out-of-
tolerance miss. -/
theorem c3_witness :
    ((0 : Nat) ∈ sorted_ids exTwo [objA2, objB] 0 ∧
      (exTwo, ([] : List Nat)).2.contains 0 = false ∧
      dist_matrix exTwo [objA2, objB] 0 0 < cfgEx.dist_tol * cfgEx.dist_tol) ∧
    matchStep cfgEx exTwo [⟨100, 0, 0, 1⟩] (exTwo, []) 0 =
      (applyMiss (exTwo, ([] : List Nat)).1 (exTwo.m_id_list.getD 0 0),
        (exTwo, ([] : List Nat)).2) := by
  constructor
  · exact (c3_strict_tolerance cfgEx exTwo [objA2, objB] (exTwo, []) 0).1 0 (by decide)
  · exact (c3_strict_tolerance cfgEx exTwo [⟨100, 0, 0, 1⟩] (exTwo, []) 0).2 (by decide)

/-- C4: from a state with no tracked objects, updating with n detections
registers all of them: the count becomes n and every detection's
position/size appears among `activeObjects()`. -/
theorem c4_empty_registry_update (cfg : Config) (s : Tracker) (dets : List Object)
    (h : WF s) (h0 : object_count s = 0) :
    object_count (update cfg s dets) = dets.length ∧
    ∀ d ∈ dets, d ∈ (active_objects (update cfg s dets)).1 := by
  have hak : akeys s = [] := count_zero_akeys s h0
  have hdis : s.m_disappeared = [] := by
    have h1 : mkeys s.m_disappeared = [] := by rw [h.2.2.1, hak]
    simpa [mkeys] using h1
  by_cases hn : dets.length = 0
  · have hdets : dets = [] := List.length_eq_zero.mp hn
    subst hdets
    rw [show update cfg s [] = cleanup_dissapeared cfg (age_all s) from by
      unfold update update_body
      simp]
    have hd2 : (age_all s).m_disappeared = [] := by
      show s.m_disappeared.map _ = []
      rw [hdis]
      rfl
    have hcl : cleanup_dissapeared cfg (age_all s) = age_all s := by
      unfold cleanup_dissapeared
      rw [hd2]
      rfl
    rw [hcl]
    constructor
    · exact h0
    · intro d hd
      simp at hd
  · have hbody : update cfg s dets =
        cleanup_dissapeared cfg (List.foldl register_object s dets) := by
      unfold update update_body
      rw [if_neg hn, if_pos h0]
    have hz : ∀ p ∈ (List.foldl register_object s dets).m_disappeared, p.2 = 0 :=
      fold_register_disappeared_zero dets s (by rw [hdis]; simp)
    have hcl : cleanup_dissapeared cfg (List.foldl register_object s dets) =
        List.foldl register_object s dets :=
      cleanup_of_small cfg _ (fun p hp => by rw [hz p hp]; omega)
    rw [hbody, hcl]
    have hWf := WF_fold_register dets s h
    constructor
    · rw [count_fold_register dets s h, h0]
      omega
    · intro d hd
      rcases fold_register_values dets s h d hd with ⟨k, hk, hfind⟩
      rw [active_objects_pure _ hWf]
      refine List.mem_map.mpr ⟨k, ?_, ?_⟩
      · exact hWf.2.2.2.2.1.mem_iff.mpr hk
      · simp [lookupObj, mfindD, hfind]

/-- C4 witness: registering one detection from the fresh tracker. -/
theorem c4_witness :
    object_count (update cfgEx initTracker [objA]) = [objA].length ∧
    ∀ d ∈ [objA], d ∈ (active_objects (update cfgEx initTracker [objA])).1 :=
  c4_empty_registry_update cfgEx initTracker [objA] WF_initTracker rfl

/-- C5: cleanup keeps exactly the identities whose disappeared count does not
exceed `maxDisappearedFrames`; hence after every update every surviving
identity satisfies the bound (an identity is removed on the very update that
pushes it past the threshold); and an id absent from the registry and below
the id counter never appears in any later reachable state. -/
theorem c5_removal_and_no_reappear (cfg : Config) (s : Tracker) (h : WF s) :
    (∀ k, k ∈ akeys (cleanup_dissapeared cfg s) ↔
        k ∈ akeys s ∧ mfindD s.m_disappeared k 0 ≤ cfg.max_dissapeared_frms) ∧
    (∀ dets k, k ∈ akeys (update cfg s dets) →
        mfindD (update cfg s dets).m_disappeared k 0 ≤ cfg.max_dissapeared_frms) ∧
    (∀ k t, Reach cfg s t → k ∉ akeys s → k < s.m_next_id → k ∉ akeys t) := by
  refine ⟨fun k => mem_akeys_cleanup cfg s h k,
    fun dets k hk => update_disappeared_le cfg s dets h k hk, ?_⟩
  intro k t hr hk hlt
  exact (no_reappear cfg hr h k hk hlt).1

/-- C5 witness: the three parts at the one-object one-miss state. -/
theorem c5_witness :
    (1 ∈ akeys (cleanup_dissapeared cfgEx exMiss) ↔
      1 ∈ akeys exMiss ∧
        mfindD exMiss.m_disappeared 1 0 ≤ cfgEx.max_dissapeared_frms) ∧
    mfindD (update cfgEx exMiss []).m_disappeared 1 0 ≤ cfgEx.max_dissapeared_frms ∧
    (0 : Nat) ∉ akeys exMiss := by
  refine ⟨(c5_removal_and_no_reappear cfgEx exMiss (by decide)).1 1, ?_, ?_⟩
  · exact (c5_removal_and_no_reappear cfgEx exMiss (by decide)).2.1 [] 1 (by decide)
  · exact (c5_removal_and_no_reappear cfgEx exMiss (by decide)).2.2 0 exMiss
      (Reach.refl exMiss) (by decide) (by decide)

/-- C6: a successful `topValid` call claims the returned identity (uprooted
flips false to true), and iterating `topValid` returns the currently eligible
identities each exactly once (in ascending id order) after which the scan
finds nothing. -/
theorem c6_topValid_once (cfg : Config) (s : Tracker) (h : WF s) :
    (∀ k, findValid cfg s = some k →
        mfindD s.m_uprooted k false = false ∧
        mfindD ((topValid cfg s).2).m_uprooted k false = true) ∧
    (runClaims cfg (elig cfg s).length s).1 = elig cfg s ∧
    (topValid cfg (runClaims cfg (elig cfg s).length s).2).1 = none := by
  refine ⟨?_, (runClaims_spec cfg _ s h rfl).1,
    topValid_none cfg _ (runClaims_spec cfg _ s h rfl).2⟩
  intro k hk
  constructor
  · have h1 := List.find?_some hk
    simp only [Bool.and_eq_true, Bool.not_eq_true', decide_eq_true_eq] at h1
    exact h1.2
  · rw [(topValid_claim_state cfg s k hk).1]
    show mfindD (mset s.m_uprooted k true) k false = true
    rw [mfindD_mset_self]

/-- C6 witness: the claim contract at the one-eligible-identity state. -/
theorem c6_witness :
    (mfindD exMatch2.m_uprooted 1 false = false ∧
      mfindD ((topValid cfgEx exMatch2).2).m_uprooted 1 false = true) ∧
    (runClaims cfgEx (elig cfgEx exMatch2).length exMatch2).1 = elig cfgEx exMatch2 ∧
    (topValid cfgEx (runClaims cfgEx (elig cfgEx exMatch2).length exMatch2).2).1 = none := by
  have h := c6_topValid_once cfgEx exMatch2 (by decide)
  exact ⟨h.1 1 (by decide), h.2.1, h.2.2⟩

/-- C7: `active_objects` and `top` leave the tracker state unchanged on every
well-formed state (their `operator[]` reads hit only present keys, so the
default-insertion path is never taken); `object_count` is a pure function of
the state by construction. -/
theorem c7_pure_reads (s : Tracker) (h : WF s) :
    (active_objects s).2 = s ∧ (top s).2 = s := by
  constructor
  · rw [active_objects_pure s h]
  · rw [top_pure s h]

/-- C7 witness: purity at the two-object state. -/
theorem c7_witness : (active_objects exTwo).2 = exTwo ∧ (top exTwo).2 = exTwo :=
  c7_pure_reads exTwo (by decide)

/-- C8: `top` fails exactly when the registry is empty; otherwise it returns
the object of the head of the ordered identity list, and its result is
independent of the eligibility bookkeeping (framecounts and uprooted flags). -/
theorem c8_top_total (s : Tracker) (h : WF s) :
    ((top s).1 = none ↔ object_count s = 0) ∧
    (object_count s ≠ 0 →
      (top s).1 = some (lookupObj s (s.m_id_list.headD 0))) ∧
    (∀ u f, (top { s with m_uprooted := u, m_framecount := f }).1 = (top s).1) := by
  refine ⟨?_, ?_, ?_⟩
  · rw [top_pure s h]
    by_cases h0 : object_count s = 0
    · simp [h0]
    · simp [h0]
  · intro h0
    rw [top_pure s h]
    simp [h0]
  · intro u f
    show (top { s with m_uprooted := u, m_framecount := f }).1 = (top s).1
    unfold top
    simp only [object_count]
    by_cases h0 : s.m_active_objects.length = 0
    · rw [if_pos h0, if_pos h0]
    · rw [if_neg h0, if_neg h0]

/-- C8 witness: totality of `top` at the two-object state. -/
theorem c8_witness :
    ((top exTwo).1 = none ↔ object_count exTwo = 0) ∧
    (object_count exTwo ≠ 0 →
      (top exTwo).1 = some (lookupObj exTwo (exTwo.m_id_list.headD 0))) ∧
    (∀ u f, (top { exTwo with m_uprooted := u, m_framecount := f }).1 = (top exTwo).1) :=
  c8_top_total exTwo (by decide)

/-- C10: whenever the `topValid` scan succeeds, the returned id is eligible
(sufficient framecount, not uprooted) and is the SMALLEST eligible id — the
scan iterates `m_active_objects` in ascending key order, so the oldest
eligible identity wins, not the highest-ranked one. -/
theorem c10_topValid_min_id (cfg : Config) (s : Tracker) (h : WF s) (k : Nat)
    (hk : findValid cfg s = some k) :
    (cfg.min_framecount ≤ mfindD s.m_framecount k 0 ∧
      mfindD s.m_uprooted k false = false) ∧
    ∀ k2 ∈ akeys s,
      (cfg.min_framecount ≤ mfindD s.m_framecount k2 0 ∧
        mfindD s.m_uprooted k2 false = false) → k ≤ k2 := by
  have hmin := find?_sorted_min
    (fun k => decide (cfg.min_framecount ≤ mfindD s.m_framecount k 0) &&
      !(mfindD s.m_uprooted k false)) (akeys s) h.1 k hk
  constructor
  · have h1 := hmin.1
    simp only [Bool.and_eq_true, Bool.not_eq_true', decide_eq_true_eq] at h1
    exact h1
  · intro k2 hk2 hp
    refine hmin.2 k2 hk2 ?_
    simp only [Bool.and_eq_true, Bool.not_eq_true', decide_eq_true_eq]
    exact hp

/-- C10 witness: the minimality contract at the one-eligible-identity state. -/
theorem c10_witness :
    ((cfgEx.min_framecount ≤ mfindD exMatch2.m_framecount 1 0 ∧
      mfindD exMatch2.m_uprooted 1 false = false)) ∧
    ∀ k2 ∈ akeys exMatch2,
      (cfgEx.min_framecount ≤ mfindD exMatch2.m_framecount k2 0 ∧
        mfindD exMatch2.m_uprooted k2 false = false) → 1 ≤ k2 :=
  c10_topValid_min_id cfgEx exMatch2 (by decide) 1 (by decide)
